import Mathlib

/-!
Shallow embedding of the retrieval / admission-control pipeline of the
fyrebot-backend repository, together with proofs settling the frozen claims.

Sources embedded:
* `src/utils/constants.js`      — `PLANS`, `CHUNK_CONFIG`, `chunkText`
* `src/middleware/rate-limit.js`— `rateLimiter`, `checkMonthlyLimit`
* `src/services/vector-search.service.js` — `search`, `fallbackTextSearch`
* `src/services/data.service.js`— `DataService.registerData`

Strings are modelled as `List Char`; JavaScript floats in the keyword scorer
are modelled as exact rationals (`ℚ`), which agrees with the float program on
all comparisons appearing in the claims.  External collaborators (Mongo,
Redis) are modelled as explicit state threaded through the functions, with
fault flags standing for operations that may throw.
-/

namespace Fyrebot

abbrev Str := List Char

/-! ## Plan limits (`src/utils/constants.js`, `PLANS`) -/

/-- Tenant quota limits, one record per plan (`PLANS[*].limits`). -/
structure Limits where
  apiCallsPerMonth : Nat
  sectionsPerTenant : Nat
  tokensPerRequest : Nat
  requestsPerMinute : Nat
  requestsPerHour : Nat
deriving DecidableEq, Repr

/-- `PLANS.FREE.limits`. -/
def freeLimits : Limits := ⟨1000, 10, 2000, 10, 100⟩

/-- `PLANS.PRO.limits`. -/
def proLimits : Limits := ⟨10000, 100, 4000, 30, 500⟩

/-- `PLANS.ENTERPRISE.limits`. -/
def enterpriseLimits : Limits := ⟨100000, 1000, 8000, 100, 2000⟩

/-- Limits are a pure function of the plan tier; these are the only three. -/
def planLimits : List Limits := [freeLimits, proLimits, enterpriseLimits]

/-! ## Rate limiting middleware (`src/middleware/rate-limit.js`)

The Redis counters relevant to one request are the minute-bucket, hour-bucket
and month-bucket counters for the requesting tenant (an absent key reads as
0, and `INCR` on an absent key yields 1, so `Nat` with 0 for "absent" is an
exact model).  Each Redis call may throw; the `RedisFaults` record says which
calls do.  A thrown call performs no state change and control jumps to the
middleware's `catch`, which only logs (the request proceeds). -/

/-- Per-tenant counters for the current minute / hour / month buckets. -/
structure RedisCounters where
  minuteCount : Nat
  hourCount : Nat
  monthCount : Nat
deriving DecidableEq, Repr

/-- Which Redis operations throw during this request. -/
structure RedisFaults where
  failIncrMinute : Bool
  failExpireMinute : Bool
  failIncrHour : Bool
  failExpireHour : Bool
  failGetMonth : Bool
  failIncrMonth : Bool
  failExpireMonth : Bool
deriving DecidableEq, Repr

/-- A healthy counter store: no operation throws. -/
def noFaults : RedisFaults := ⟨false, false, false, false, false, false, false⟩

/-- What the middleware sends: nothing (request passes on), or a 429 reply.
`retryAfter` and `usage` mirror the JSON payload fields of the two reply
shapes in `rate-limit.js` (the minute/hour reply carries `retryAfter`, the
monthly reply carries `usage: \x7bused, limit\x7d` and no `retryAfter`). -/
inductive Outcome
  | pass
  | reply429 (retryAfter : Option Nat) (usage : Option (Nat × Nat))
deriving DecidableEq, Repr

/-- Result of running a middleware: new counter state, what was sent, and
whether an error was caught by the middleware's `catch` block. -/
structure MwResult where
  state : RedisCounters
  outcome : Outcome
  errorCaught : Bool
deriving DecidableEq, Repr

/-- `rateLimiter` from `src/middleware/rate-limit.js` (lines 9–61), for one
request whose minute and hour buckets are the ones in `st`.  Mirrors the
code: increment minute counter, set expiry if the post-increment value is 1,
deny with `retryAfter: 60` if it exceeds `requestsPerMinute`; then the same
for the hour bucket with `retryAfter: 3600`; any thrown Redis call is caught
and the request passes. -/
def rateLimiter (f : RedisFaults) (limits : Limits) (st : RedisCounters) :
    MwResult :=
  if f.failIncrMinute then ⟨st, .pass, true⟩
  else if st.minuteCount + 1 = 1 ∧ f.failExpireMinute then
    ⟨⟨st.minuteCount + 1, st.hourCount, st.monthCount⟩, .pass, true⟩
  else if limits.requestsPerMinute < st.minuteCount + 1 then
    ⟨⟨st.minuteCount + 1, st.hourCount, st.monthCount⟩,
      .reply429 (some 60) none, false⟩
  else if f.failIncrHour then
    ⟨⟨st.minuteCount + 1, st.hourCount, st.monthCount⟩, .pass, true⟩
  else if st.hourCount + 1 = 1 ∧ f.failExpireHour then
    ⟨⟨st.minuteCount + 1, st.hourCount + 1, st.monthCount⟩, .pass, true⟩
  else if limits.requestsPerHour < st.hourCount + 1 then
    ⟨⟨st.minuteCount + 1, st.hourCount + 1, st.monthCount⟩,
      .reply429 (some 3600) none, false⟩
  else ⟨⟨st.minuteCount + 1, st.hourCount + 1, st.monthCount⟩, .pass, false⟩

/-- `checkMonthlyLimit` from `src/middleware/rate-limit.js` (lines 66–103):
read (`GET`) the month counter without incrementing; if it is already at or
above `apiCallsPerMonth`, send a 429 carrying `usage: \x7bused, limit\x7d` and no
`retryAfter`; otherwise `INCR` it and, when the read value was 0, set the
60-day expiry.  Thrown Redis calls are caught and the request passes. -/
def checkMonthlyLimit (f : RedisFaults) (limits : Limits) (st : RedisCounters) :
    MwResult :=
  if f.failGetMonth then ⟨st, .pass, true⟩
  else if limits.apiCallsPerMonth ≤ st.monthCount then
    ⟨st, .reply429 none (some (st.monthCount, limits.apiCallsPerMonth)), false⟩
  else if f.failIncrMonth then ⟨st, .pass, true⟩
  else if st.monthCount = 0 ∧ f.failExpireMonth then
    ⟨⟨st.minuteCount, st.hourCount, st.monthCount + 1⟩, .pass, true⟩
  else ⟨⟨st.minuteCount, st.hourCount, st.monthCount + 1⟩, .pass, false⟩

/-- State after `k` sequential requests in the same minute/hour bucket
(counters initially absent), paired with the outcome of the `k`-th request
(`.pass` for `k = 0`, vacuously). -/
def runCalls (limits : Limits) : Nat → RedisCounters × Outcome
  | 0 => (⟨0, 0, 0⟩, .pass)
  | k + 1 =>
    let r := rateLimiter noFaults limits (runCalls limits k).1
    (r.state, r.outcome)

/-! ## String utilities (`src/utils/helpers.js`)

JavaScript strings are modelled as `List Char`.  `String.prototype.split(/\s+/)`
is modelled exactly, including the empty leading piece produced when the
string starts with whitespace and the empty trailing piece produced when it
ends with whitespace (and the single empty piece for the empty string). -/

/-- Whitespace class of the JavaScript `\s` regex (the characters occurring in
practice: space, tab, line feed, carriage return, vertical tab, form feed). -/
def isWsChar (c : Char) : Bool :=
  c == ' ' || c == '\t' || c == '\n' || c == '\r' ||
    c == Char.ofNat 11 || c == Char.ofNat 12

/-- State machine for `text.split(/\s+/)`: `prevWs` records whether the
previous character was part of a whitespace run (so the run is extended
without emitting a piece), `acc` is the current piece reversed. -/
def jsSplitGo : Str → Bool → Str → List Str
  | [], _, acc => [acc.reverse]
  | c :: rest, prevWs, acc =>
    if isWsChar c then
      if prevWs then jsSplitGo rest true acc
      else acc.reverse :: jsSplitGo rest true []
    else jsSplitGo rest false (c :: acc)

/-- `text.split(/\s+/)` with exact JavaScript semantics. -/
def jsSplitWs (s : Str) : List Str := jsSplitGo s false []

/-- `String.prototype.trim()`: remove whitespace from both ends. -/
def jsTrim (s : Str) : Str :=
  ((s.dropWhile isWsChar).reverse.dropWhile isWsChar).reverse

/-- `Array.prototype.join(' ')`. -/
def joinSpace : List Str → Str
  | [] => []
  | [w] => w
  | w :: ws => w ++ ' ' :: joinSpace ws

/-- `Array.prototype.slice(start, stop)` with signed indices (a negative
index counts from the end, as in JavaScript). -/
def jsSlice (l : List Str) (start stop : Int) : List Str :=
  let len : Int := l.length
  let s := if start < 0 then max (len + start) 0 else min start len
  let e := if stop < 0 then max (len + stop) 0 else min stop len
  (l.take e.toNat).drop s.toNat

/-! ## The chunker (`src/utils/constants.js` pack: `chunkText` in helpers)

`chunkText` iterates `for (let i = 0; i < words.length; i += chunkSize -
overlap)`.  The loop variable lives in the integers (JavaScript numbers:
when `overlap > chunkSize` the step is negative) and the loop need not
terminate, so it is modelled with explicit fuel: `none` means the fuel ran
out, i.e. the prescribed number of loop iterations did not suffice.  With
`overlap < chunkSize` the loop performs at most `words.length + 1`
iterations, which is the fuel `chunkText` supplies. -/

/-- The loop body of `chunkText`: while `i < words.length`, join the window
`words.slice(i, i + chunkSize)` with spaces, push its trim when non-empty,
and advance `i` by `chunkSize - overlap` (an integer, possibly ≤ 0). -/
def chunkLoop (words : List Str) (chunkSize overlap : Nat) :
    Nat → Int → List Str → Option (List Str)
  | 0, _, _ => none
  | fuel + 1, i, acc =>
    if i < (words.length : Int) then
      chunkLoop words chunkSize overlap fuel (i + ((chunkSize : Int) - overlap))
        (if 0 < (jsTrim (joinSpace (jsSlice words i (i + chunkSize)))).length
         then acc ++ [jsTrim (joinSpace (jsSlice words i (i + chunkSize)))]
         else acc)
    else
      some acc

/-- `chunkText(text, chunkSize, overlap)` from `src/utils/helpers.js`:
split on `/\s+/`, then run the sliding-window loop (with enough fuel for the
terminating case `overlap < chunkSize`). -/
def chunkText (text : Str) (chunkSize overlap : Nat) : Option (List Str) :=
  let words := jsSplitWs text
  chunkLoop words chunkSize overlap (words.length + 1) 0 []

/-- `CHUNK_CONFIG` from `src/utils/constants.js`. -/
structure ChunkConfig where
  size : Nat
  overlap : Nat
  minSize : Nat
deriving DecidableEq, Repr

/-- The deployed chunking configuration: size 500, overlap 50. -/
def CHUNK_CONFIG : ChunkConfig := ⟨500, 50, 100⟩

/-! ## Reference chunker, modelled from the spec's words

Section 4.1 of the spec: "Splits on whitespace into tokens, then emits
sliding windows of `windowSize` tokens advancing by `windowSize − overlap`
tokens each step; trims and drops empty results."  Splitting a string on
whitespace "into tokens" yields the maximal non-empty whitespace-free runs;
windows are emitted for start indices 0, step, 2·step, … while they contain
at least one token.  The definitions are fuel-indexed to stay executable;
fuel at least the token count is always sufficient. -/

/-- Tokenization per the spec: maximal non-empty whitespace-free runs
(`acc` is the current run reversed). -/
def refTokensGo : Str → Str → List Str
  | [], acc => if acc.isEmpty then [] else [acc.reverse]
  | c :: rest, acc =>
    if isWsChar c then
      (if acc.isEmpty then [] else [acc.reverse]) ++ refTokensGo rest []
    else refTokensGo rest (c :: acc)

/-- The tokens of a text, per the spec's "split on whitespace into tokens". -/
def refTokens (s : Str) : List Str := refTokensGo s []

/-- Reference sliding windows over `tokens`: the window at start index `i`
is the next `windowSize` tokens joined by single spaces and trimmed, omitted
when it trims to the empty string; start indices advance by `stepM1 + 1`. -/
def refWindows (tokens : List Str) (windowSize stepM1 : Nat) :
    Nat → Nat → List Str
  | 0, _ => []
  | fuel + 1, i =>
    if i < tokens.length then
      (if 0 < (jsTrim (joinSpace ((tokens.drop i).take windowSize))).length
       then [jsTrim (joinSpace ((tokens.drop i).take windowSize))] else []) ++
        refWindows tokens windowSize stepM1 fuel (i + (stepM1 + 1))
    else []

/-- The reference chunker, modelled from the spec: windows of `windowSize`
tokens advancing by `windowSize - overlap` (meaningful for
`overlap < windowSize`, where the step is positive). -/
def referenceChunk (text : Str) (windowSize overlap : Nat) : List Str :=
  let tokens := refTokens text
  refWindows tokens windowSize (windowSize - overlap - 1) (tokens.length + 1) 0

/-! ## Rate-limit lemmas and claim theorems (C2, C6, C7) -/

/-- After `k` healthy sequential calls in one bucket, the minute counter is
`k`, the hour counter counts exactly the calls that passed the minute check
(`min k requestsPerMinute`), and the month counter is untouched. -/
lemma runCalls_state (limits : Limits) (k : Nat) :
    (runCalls limits k).1 = ⟨k, min k limits.requestsPerMinute, 0⟩ := by
  induction k with
  | zero => simp [runCalls]
  | succ k ih =>
    show (rateLimiter noFaults limits (runCalls limits k).1).state = _
    rw [ih]
    simp only [rateLimiter, noFaults]
    split_ifs <;> simp_all <;> omega

/-- The outcome of the `k`-th healthy call, when the hour limit is at least
the minute limit: denial with `retryAfter = 60` exactly above the minute
limit. -/
lemma kth_call_outcome (limits : Limits)
    (hmh : limits.requestsPerMinute ≤ limits.requestsPerHour)
    (k : Nat) (hk : 1 ≤ k) :
    (runCalls limits k).2 =
      if limits.requestsPerMinute < k then .reply429 (some 60) none
      else .pass := by
  obtain ⟨j, rfl⟩ : ∃ j, k = j + 1 := ⟨k - 1, by omega⟩
  show (rateLimiter noFaults limits (runCalls limits j).1).outcome = _
  rw [runCalls_state]
  simp only [rateLimiter, noFaults]
  split_ifs <;> simp_all <;> omega

/-- C2: for a tenant on any of the three plans, with the minute-bucket (and
hour-bucket) counters initially absent and calls applied sequentially in the
same bucket, the k-th call passes iff `k ≤ requestsPerMinute`, and above the
limit the call is denied with `retryAfter = 60`; the decision is taken on the
post-increment counter value (modelled in `rateLimiter`). -/
theorem minute_window_kth_call (limits : Limits) (hplan : limits ∈ planLimits)
    (k : Nat) (hk : 1 ≤ k) :
    ((runCalls limits k).2 = .pass ↔ k ≤ limits.requestsPerMinute) ∧
      (limits.requestsPerMinute < k →
        (runCalls limits k).2 = .reply429 (some 60) none) := by
  have hmh : limits.requestsPerMinute ≤ limits.requestsPerHour := by
    simp only [planLimits, List.mem_cons, List.not_mem_nil, or_false] at hplan
    rcases hplan with h | h | h <;> subst h <;> decide
  rw [kth_call_outcome limits hmh k hk]
  refine ⟨?_, fun h => by simp [h]⟩
  by_cases h : limits.requestsPerMinute < k <;> simp [h] <;> omega

/-- Witness for C2: on the free plan (10 requests/minute) the 10th call in a
bucket passes and the 11th is denied with `retryAfter = 60`. -/
theorem minute_window_kth_call_witness :
    (runCalls freeLimits 10).2 = .pass ∧
      (runCalls freeLimits 11).2 = .reply429 (some 60) none :=
  ⟨(minute_window_kth_call freeLimits (by decide) 10 (by decide)).1.mpr
      (by decide),
    (minute_window_kth_call freeLimits (by decide) 11 (by decide)).2
      (by decide)⟩

/-- C6: the monthly check reads the month counter without incrementing; at or
above `apiCallsPerMonth` it denies reporting `(used, limit)` with no
`retryAfter` and leaves the counter unchanged; below the limit it increments
by exactly one and admits. -/
theorem monthly_check_read_then_increment (limits : Limits)
    (st : RedisCounters) :
    (limits.apiCallsPerMonth ≤ st.monthCount →
      checkMonthlyLimit noFaults limits st =
        ⟨st, .reply429 none (some (st.monthCount, limits.apiCallsPerMonth)),
          false⟩) ∧
    (st.monthCount < limits.apiCallsPerMonth →
      checkMonthlyLimit noFaults limits st =
        ⟨{ st with monthCount := st.monthCount + 1 }, .pass, false⟩) := by
  simp only [checkMonthlyLimit, noFaults]
  constructor <;> intro h <;> split_ifs <;> simp_all <;> omega

/-- Witness for C6: a free-plan tenant at exactly 1000 monthly calls is
denied with usage `(1000, 1000)`, counter unchanged; at 999 the call is
admitted and the counter becomes 1000. -/
theorem monthly_check_read_then_increment_witness :
    checkMonthlyLimit noFaults freeLimits ⟨0, 0, 1000⟩ =
        ⟨⟨0, 0, 1000⟩, .reply429 none (some (1000, 1000)), false⟩ ∧
      checkMonthlyLimit noFaults freeLimits ⟨0, 0, 999⟩ =
        ⟨⟨0, 0, 1000⟩, .pass, false⟩ :=
  ⟨(monthly_check_read_then_increment freeLimits ⟨0, 0, 1000⟩).1 (by decide),
    (monthly_check_read_then_increment freeLimits ⟨0, 0, 999⟩).2 (by decide)⟩

/-- C7: quota enforcement is fail-open.  Whenever a Redis operation throws
(the middleware's `catch` fires, `errorCaught = true`), both the minute/hour
check and the monthly check let the request pass — no 429 is produced and no
error escapes (both functions are total).  In particular an unavailable
store (the very first operation throwing) admits with no state change. -/
theorem quota_fail_open (f : RedisFaults) (limits : Limits)
    (st : RedisCounters) :
    ((rateLimiter f limits st).errorCaught = true →
      (rateLimiter f limits st).outcome = .pass) ∧
    ((checkMonthlyLimit f limits st).errorCaught = true →
      (checkMonthlyLimit f limits st).outcome = .pass) ∧
    (f.failIncrMinute = true → rateLimiter f limits st = ⟨st, .pass, true⟩) ∧
    (f.failGetMonth = true →
      checkMonthlyLimit f limits st = ⟨st, .pass, true⟩) := by
  refine ⟨?_, ?_, ?_, ?_⟩
  · simp only [rateLimiter]
    split_ifs <;> simp
  · simp only [checkMonthlyLimit]
    split_ifs <;> simp
  · intro h
    simp [rateLimiter, h]
  · intro h
    simp [checkMonthlyLimit, h]

/-- Witness for C7: with a store whose hour-increment throws, a free-plan
request passes, and with the month-read throwing the monthly check passes. -/
theorem quota_fail_open_witness :
    (rateLimiter ⟨false, false, true, false, false, false, false⟩ freeLimits
        ⟨0, 0, 0⟩).outcome = .pass ∧
      checkMonthlyLimit ⟨false, false, false, false, true, false, false⟩
          freeLimits ⟨5, 5, 5⟩ = ⟨⟨5, 5, 5⟩, .pass, true⟩ :=
  ⟨(quota_fail_open ⟨false, false, true, false, false, false, false⟩
      freeLimits ⟨0, 0, 0⟩).1 (by decide),
    (quota_fail_open ⟨false, false, false, false, true, false, false⟩
      freeLimits ⟨5, 5, 5⟩).2.2.2 rfl⟩

/-! ## Retrieval engine (`src/services/vector-search.service.js`)

The Mongo `chunks` collection is a list of documents in insertion order.
The vector tier (`$vectorSearch`, an external Atlas index) and the full-text
tier (`$text`, an external text index) are modelled by their outcomes: an
`Except Unit (List Passage)` that is either the ranked passages they return
or an error (index unavailable / no such index).  The keyword-regex tier is
modelled in full, including the Mongo `$or` filter the code builds.  The
code treats keywords inconsistently: the look-ahead conjunction escapes
every metacharacter (line 147) and is therefore a literal test (modelled as
"every keyword occurs in the field", exact for single-line fields), while
the per-keyword `$or` arms (line 156) and the scorer's
`new RegExp(keyword, 'gi')` (line 178) use the raw keyword as a regex —
modelled by an evaluator for the anchor/wildcard fragment (see
`reMatchLen`).  The float score
`0.15 × occurrences` capped at `1.0` and thresholded at `0.1` is modelled
exactly in hundredths (`score : Nat`, so `0.15` is `15` and the cap is
`100`); every score the program can produce is a multiple of `0.15` capped
at `1.0`, so this scaling is exact for all comparisons involved. -/

/-- A document of the `chunks` collection (as written by `registerData`).
The embedding vector is opaque (no claim depends on its contents). -/
structure ChunkDoc where
  tenantId : Str
  sectionId : Str
  chunkId : Str
  sectionType : Str
  sectionTitle : Str
  text : Str
  embedding : Nat
  position : Nat
deriving DecidableEq, Repr

/-- A scored passage as returned by the retrieval engine (`score` is in
hundredths of the code's float score). -/
structure Passage where
  chunkId : Str
  sectionId : Str
  sectionType : Str
  sectionTitle : Str
  text : Str
  score : Nat
deriving DecidableEq, Repr

/-- `String.prototype.toLowerCase()`. -/
def lowerStr (s : Str) : Str := s.map Char.toLower

/-- The query keywords: `queryText.toLowerCase().split(/\s+/).filter(k =>
k.length > 2)` (line 146). -/
def keywordsOf (q : Str) : List Str :=
  (jsSplitWs (lowerStr q)).filter (fun k => 2 < k.length)

/-- Literal leftmost non-overlapping occurrence count, fuel-indexed (the
fuel `s.length` used by `countOccur` is always sufficient). -/
def countOccurF (pat : Str) : Nat → Str → Nat
  | 0, _ => 0
  | _ + 1, [] => 0
  | fuel + 1, c :: rest =>
    if pat.isPrefixOf (c :: rest) then
      1 + countOccurF pat fuel (rest.drop (pat.length - 1))
    else countOccurF pat fuel rest

/-- The number of leftmost non-overlapping literal occurrences of `pat` in
`s`.  This is the claims' notion of "occurrences of a keyword", and it is
also exactly what the code's regexes compute whenever the keyword contains
no regex metacharacter (`reCount_eq_countOccur`). -/
def countOccur (pat s : Str) : Nat := countOccurF pat s.length s

/-- Does `pat` occur as a contiguous substring of `s`? -/
def hasSub (pat : Str) : Str → Bool
  | [] => pat.isEmpty
  | c :: rest => pat.isPrefixOf (c :: rest) || hasSub pat rest

/-! ### JavaScript regex semantics for raw keywords

The code builds its conjunctive pattern from **escaped** keywords
(line 147: `k.replace(/[.*+?^$\x7b\x7d()|[\]\\]/g, '\\$&')`), so that arm
is a literal-containment test.  The per-keyword `$or` arms (line 156:
`\x7b text: \x7b $regex: keyword \x7d \x7d`) and the scorer's
`new RegExp(keyword, 'gi')` (line 178) use the **raw** keyword as a regex.
We model that regex semantics for patterns made of literal characters and
the zero-width/wildcard atoms `.` (any char except a line terminator),
`^` (start-of-input anchor; no `m` flag) and `$` (end-of-input anchor):
since keywords contain no whitespace and both pattern and subject are
lowercased, the `i` flag is inert, and this fragment has no backtracking.
Patterns containing the remaining metacharacters (`* + ? ( ) [ ] \x7b \x7d | \`,
whose quantifier/group/class semantics — and `SyntaxError` on malformed
patterns — are not modelled) are excluded from every general theorem about
this stage by the `litOnly` hypothesis; inside the fragment the model is
exact. -/

/-- Is `c` one of the regex metacharacters of `new RegExp` (the characters
the code's escaper at line 147 escapes)? -/
def isRegexMeta (c : Char) : Bool :=
  c == '.' || c == '^' || c == '$' || c == '*' || c == '+' || c == '?' ||
    c == '(' || c == ')' || c == '[' || c == ']' ||
    c == Char.ofNat 123 || c == Char.ofNat 125 || c == '|' ||
    c == Char.ofNat 92

/-- A keyword that is a purely literal regex: no metacharacter at all. -/
def litOnly (k : Str) : Bool := k.all fun c => !isRegexMeta c

/-- A regex atom of the modelled fragment. -/
inductive RAtom
  | lit (c : Char)
  | dot
  | caret
  | dollar
deriving DecidableEq, Repr

/-- Compile a raw keyword to its atoms (exact on the modelled fragment:
every character other than `.`, `^`, `$` is taken literally). -/
def reAtoms (k : Str) : List RAtom :=
  k.map fun c =>
    if c == '.' then .dot
    else if c == '^' then .caret
    else if c == '$' then .dollar
    else .lit c

/-- A line terminator (which `.` does not match). -/
def isLineTerm (c : Char) : Bool :=
  c == '\n' || c == '\r' || c == Char.ofNat 0x2028 || c == Char.ofNat 0x2029

/-- Match the atom sequence against a prefix of `s`, returning the number of
characters consumed; `atStart` says whether this position is the start of
the input (for `^`).  The fragment has no quantifiers, so matching is
deterministic. -/
def reMatchLen : List RAtom → Str → Bool → Option Nat
  | [], _, _ => some 0
  | .lit c :: rest, s, _ =>
    match s with
    | [] => none
    | d :: s' =>
      if c == d then (reMatchLen rest s' false).map (· + 1) else none
  | .dot :: rest, s, _ =>
    match s with
    | [] => none
    | d :: s' =>
      if isLineTerm d then none else (reMatchLen rest s' false).map (· + 1)
  | .caret :: rest, s, atStart =>
    if atStart then reMatchLen rest s atStart else none
  | .dollar :: rest, s, atStart =>
    match s with
    | [] => reMatchLen rest [] atStart
    | _ :: _ => none

/-- `regex.test(s)`-style search: does the pattern match at some position?
Scans positions left to right (fuel `s.length + 1` always suffices). -/
def reTestF (atoms : List RAtom) : Nat → Bool → Str → Bool
  | 0, _, _ => false
  | fuel + 1, atStart, s =>
    match reMatchLen atoms s atStart with
    | some _ => true
    | none =>
      match s with
      | [] => false
      | _ :: s' => reTestF atoms fuel false s'

/-- The Mongo `$regex: keyword, $options: 'i'` test on a lowercased field:
does the raw keyword, read as a regex, match anywhere? -/
def reTest (k s : Str) : Bool := reTestF (reAtoms k) (s.length + 1) true s

/-- `(s.match(new RegExp(k, 'gi')) || []).length`: the global match count.
A found match advances past its end (a zero-width match advances by one
character, as `lastIndex` does); a failed position advances by one. -/
def reCountF (atoms : List RAtom) : Nat → Bool → Str → Nat
  | 0, _, _ => 0
  | fuel + 1, atStart, s =>
    match reMatchLen atoms s atStart with
    | some 0 =>
      match s with
      | [] => 1
      | _ :: s' => 1 + reCountF atoms fuel false s'
    | some (n + 1) => 1 + reCountF atoms fuel false (s.drop (n + 1))
    | none =>
      match s with
      | [] => 0
      | _ :: s' => reCountF atoms fuel false s'

/-- The scorer's per-keyword global match count over the lowercased text. -/
def reCount (k s : Str) : Nat := reCountF (reAtoms k) (s.length + 1) true s

/-- The look-ahead conjunction built from **escaped** keywords (line 147)
applied case-insensitively to a field: every keyword occurs literally in
the field. -/
def conjMatch (kws : List Str) (field : Str) : Bool :=
  kws.all (fun k => hasSub k (lowerStr field))

/-- The per-keyword `$or` arms `\x7b text: \x7b $regex: keyword, $options: 'i' \x7d \x7d`
(line 156): some **raw** keyword, read as a regex, matches the field. -/
def someTextMatch (kws : List Str) (field : Str) : Bool :=
  kws.any (fun k => reTest k (lowerStr field))

/-- The `$or` filter built at lines 150–159: conjunctive pattern against
`text`, or conjunctive pattern against `sectionTitle`, or any single keyword
against `text`. -/
def chunkMatchesOr (kws : List Str) (c : ChunkDoc) : Bool :=
  conjMatch kws c.text || conjMatch kws c.sectionTitle ||
    someTextMatch kws c.text

/-- The base query `{ tenantId }` plus the optional `sectionType` filter. -/
def tenantTypeMatch (tenantId : Str) (sectionType : Option Str)
    (c : ChunkDoc) : Bool :=
  c.tenantId == tenantId &&
    (match sectionType with
     | none => true
     | some t => c.sectionType == t)

/-- Total number of keyword occurrences in a string. -/
def totalOccur (kws : List Str) (s : Str) : Nat :=
  (kws.map (fun k => countOccur k s)).sum

/-- The heuristic score of lines 173–186, in hundredths: for each keyword
add `(textLower.match(new RegExp(keyword, 'gi')) || []).length × 15` to the
running score over `(text + ' ' + sectionTitle).toLowerCase()`, then cap at
`100`.  The count is the raw keyword's regex match count (`reCount`), which
equals the literal occurrence count exactly when the keyword has no regex
metacharacter. -/
def scoreChunk100 (kws : List Str) (c : ChunkDoc) : Nat :=
  let textLower := lowerStr (c.text ++ ' ' :: c.sectionTitle)
  min (kws.foldl (fun acc k => acc + reCount k textLower * 15) 0) 100

/-- Build the projected result document (`{ ...result, score }`). -/
def mkPassage (c : ChunkDoc) (score : Nat) : Passage :=
  ⟨c.chunkId, c.sectionId, c.sectionType, c.sectionTitle, c.text, score⟩

/-- Stable insertion keeping the list sorted by descending score: the new
element goes after every element of score ≥ its own. -/
def insertByScoreDesc (p : Passage) : List Passage → List Passage
  | [] => [p]
  | q :: rest =>
    if q.score < p.score then p :: q :: rest
    else q :: insertByScoreDesc p rest

/-- `Array.prototype.sort((a, b) => b.score - a.score)`: a stable sort by
descending score (JavaScript sort is stable). -/
def sortByScoreDesc (l : List Passage) : List Passage :=
  l.foldl (fun acc p => insertByScoreDesc p acc) []

/-- The keyword-regex stage of `fallbackTextSearch` (lines 145–199): filter
the tenant's chunks by the `$or` condition, take the first `2 × limit` in
insertion order, score each, discard scores ≤ 0.1 (≤ 10 hundredths), sort by
descending score, truncate to `limit`. -/
def fallbackRegexStage (chunks : List ChunkDoc) (tenantId : Str)
    (sectionType : Option Str) (queryText : Str) (lim : Nat) : List Passage :=
  let kws := keywordsOf queryText
  let found := ((chunks.filter (tenantTypeMatch tenantId sectionType)).filter
      (chunkMatchesOr kws)).take (lim * 2)
  let scored := found.map (fun c => mkPassage c (scoreChunk100 kws c))
  (sortByScoreDesc (scored.filter (fun p => 10 < p.score))).take lim

/-- `fallbackTextSearch` (lines 102–204): try the `$text` index (whose
outcome `textIndex` is external) — a failure there is caught by the inner
`catch` and falls through; a non-empty result is returned as-is; otherwise
run the keyword-regex stage, whose own database error (`regexDbFails`) is
caught by the outer `catch` which returns the empty list. -/
def fallbackTextSearch (textIndex : Except Unit (List Passage))
    (regexDbFails : Bool) (chunks : List ChunkDoc) (tenantId : Str)
    (sectionType : Option Str) (queryText : Str) (lim : Nat) : List Passage :=
  match textIndex with
  | .ok results =>
    if 0 < results.length then results
    else if regexDbFails then []
    else fallbackRegexStage chunks tenantId sectionType queryText lim
  | .error _ =>
    if regexDbFails then []
    else fallbackRegexStage chunks tenantId sectionType queryText lim

/-- `search` (lines 21–97): run the vector tier (outcome `vectorIndex` is
external); on zero results fall back to text search; a vector-tier error is
caught and likewise falls back. -/
def search (vectorIndex textIndex : Except Unit (List Passage))
    (regexDbFails : Bool) (chunks : List ChunkDoc) (tenantId : Str)
    (sectionType : Option Str) (queryText : Str) (lim : Nat) : List Passage :=
  match vectorIndex with
  | .ok results =>
    if results.length = 0 then
      fallbackTextSearch textIndex regexDbFails chunks tenantId sectionType
        queryText lim
    else results
  | .error _ =>
    fallbackTextSearch textIndex regexDbFails chunks tenantId sectionType
      queryText lim

/-- A chunk whose text contains both keywords of "free shipping" (the spec's
scenario in §8). -/
def demoChunk : ChunkDoc :=
  ⟨"t1".toList, "s1".toList, "c1".toList, "faq".toList, "Policies".toList,
    "We offer free shipping on orders over $50".toList, 0, 0⟩

/-- A chunk whose text contains the keyword "free" but neither its text nor
its title contains "shipping". -/
def partialChunk : ChunkDoc :=
  ⟨"t1".toList, "s2".toList, "c2".toList, "faq".toList, "misc".toList,
    "free stuff only".toList, 0, 0⟩

/-! ## Retrieval-engine lemmas and claim theorems (C3, C4, C5, C8) -/

lemma mem_insertByScoreDesc {p q : Passage} :
    ∀ {l : List Passage}, q ∈ insertByScoreDesc p l ↔ q = p ∨ q ∈ l
  | [] => by simp [insertByScoreDesc]
  | r :: rest => by
    simp only [insertByScoreDesc]
    split_ifs <;>
      simp [@mem_insertByScoreDesc p q rest, List.mem_cons, or_comm,
        or_assoc, or_left_comm]

lemma mem_sortByScoreDesc_aux {q : Passage} :
    ∀ (l acc : List Passage),
      q ∈ l.foldl (fun acc p => insertByScoreDesc p acc) acc ↔
        q ∈ acc ∨ q ∈ l
  | [], acc => by simp
  | p :: rest, acc => by
    simp only [List.foldl_cons, mem_sortByScoreDesc_aux rest,
      mem_insertByScoreDesc, List.mem_cons]
    tauto

lemma mem_sortByScoreDesc {q : Passage} {l : List Passage} :
    q ∈ sortByScoreDesc l ↔ q ∈ l := by
  simp [sortByScoreDesc, mem_sortByScoreDesc_aux]

lemma pairwise_insertByScoreDesc {p : Passage} :
    ∀ {l : List Passage},
      l.Pairwise (fun a b => b.score ≤ a.score) →
        (insertByScoreDesc p l).Pairwise (fun a b => b.score ≤ a.score)
  | [], _ => by simp [insertByScoreDesc]
  | r :: rest, h => by
    rw [List.pairwise_cons] at h
    simp only [insertByScoreDesc]
    split_ifs with hlt
    · refine List.Pairwise.cons ?_ (List.Pairwise.cons h.1 h.2)
      intro x hx
      rcases List.mem_cons.1 hx with rfl | hx
      · omega
      · have := h.1 x hx
        omega
    · refine List.Pairwise.cons ?_ (pairwise_insertByScoreDesc h.2)
      intro x hx
      rcases mem_insertByScoreDesc.1 hx with rfl | hx
      · omega
      · exact h.1 x hx

lemma pairwise_sortByScoreDesc_aux :
    ∀ (l acc : List Passage),
      acc.Pairwise (fun a b => b.score ≤ a.score) →
        (l.foldl (fun acc p => insertByScoreDesc p acc) acc).Pairwise
          (fun a b => b.score ≤ a.score)
  | [], _, h => h
  | p :: rest, acc, h =>
    pairwise_sortByScoreDesc_aux rest _ (pairwise_insertByScoreDesc h)

lemma pairwise_sortByScoreDesc (l : List Passage) :
    (sortByScoreDesc l).Pairwise (fun a b => b.score ≤ a.score) :=
  pairwise_sortByScoreDesc_aux l [] (by simp)

/-! ### The regex model coincides with literal matching on metachar-free
keywords -/

lemma beq_eq_false_of_meta (c d : Char) (hc : isRegexMeta c = false)
    (hd : isRegexMeta d = true) : (c == d) = false := by
  cases h : (c == d)
  · rfl
  · rw [eq_of_beq h] at hc
    rw [hc] at hd
    exact absurd hd (by simp)

lemma reAtoms_litOnly : ∀ (k : Str), litOnly k = true →
    reAtoms k = k.map RAtom.lit
  | [], _ => rfl
  | c :: k', h => by
    simp only [litOnly, List.all_cons, Bool.and_eq_true] at h
    have hc : isRegexMeta c = false := by
      have h1 := h.1
      simp only [Bool.not_eq_true'] at h1
      exact h1
    have h1 := beq_eq_false_of_meta c '.' hc (by decide)
    have h2 := beq_eq_false_of_meta c '^' hc (by decide)
    have h3 := beq_eq_false_of_meta c '$' hc (by decide)
    have htail : reAtoms k' = k'.map RAtom.lit := reAtoms_litOnly k' h.2
    simp only [reAtoms, List.map_cons, h1, h2, h3, Bool.false_eq_true,
      if_false] at htail ⊢
    rw [htail]

/-- On an all-literal atom list, matching is exactly the prefix test. -/
lemma reMatchLen_lits : ∀ (k s : Str) (b : Bool),
    reMatchLen (k.map RAtom.lit) s b =
      if k.isPrefixOf s then some k.length else none
  | [], s, b => by
    cases s <;> simp [reMatchLen, List.isPrefixOf]
  | c :: k', [], b => by
    simp [reMatchLen, List.isPrefixOf]
  | c :: k', d :: s', b => by
    simp only [List.map_cons, reMatchLen]
    rw [reMatchLen_lits k' s' false,
      show List.isPrefixOf (c :: k') (d :: s') =
        (c == d && List.isPrefixOf k' s') from rfl]
    by_cases h : (c == d) = true
    · rw [if_pos h, h, Bool.true_and]
      by_cases h2 : k'.isPrefixOf s' = true
      · rw [if_pos h2, if_pos h2]
        simp
      · rw [if_neg h2, if_neg h2]
        rfl
    · rw [if_neg h]
      rw [Bool.not_eq_true] at h
      rw [h, Bool.false_and]
      rfl

lemma isPrefixOf_nil_eq_false {k : Str} (hk : k ≠ []) :
    k.isPrefixOf ([] : Str) = false := by
  obtain ⟨c, k', rfl⟩ := List.exists_cons_of_ne_nil hk
  rfl

lemma hasSub_nil_eq_false {k : Str} (hk : k ≠ []) : hasSub k [] = false := by
  obtain ⟨c, k', rfl⟩ := List.exists_cons_of_ne_nil hk
  rfl

/-- One unfolding step of `reTestF` when the position matches. -/
lemma reTestF_step_some (atoms : List RAtom) (fuel : Nat) (b : Bool)
    (s : Str) (n : Nat) (h : reMatchLen atoms s b = some n) :
    reTestF atoms (fuel + 1) b s = true := by
  cases s <;> simp only [reTestF, h]

/-- One unfolding step of `reTestF` when the position fails at the end. -/
lemma reTestF_step_none_nil (atoms : List RAtom) (fuel : Nat) (b : Bool)
    (h : reMatchLen atoms [] b = none) :
    reTestF atoms (fuel + 1) b [] = false := by
  simp only [reTestF, h]

/-- One unfolding step of `reTestF` when the position fails mid-string. -/
lemma reTestF_step_none_cons (atoms : List RAtom) (fuel : Nat) (b : Bool)
    (d : Char) (s' : Str) (h : reMatchLen atoms (d :: s') b = none) :
    reTestF atoms (fuel + 1) b (d :: s') = reTestF atoms fuel false s' := by
  simp only [reTestF, h]

lemma reTestF_lits {k : Str} (hk : k ≠ []) :
    ∀ (fuel : Nat) (s : Str) (b : Bool), s.length < fuel →
      reTestF (k.map RAtom.lit) fuel b s = hasSub k s
  | 0, _, _, hf => by omega
  | fuel + 1, s, b, hf => by
    rcases s with _ | ⟨d, s'⟩
    · rw [reTestF_step_none_nil _ fuel b
        (by rw [reMatchLen_lits, isPrefixOf_nil_eq_false hk]; rfl)]
      rw [hasSub_nil_eq_false hk]
    · by_cases hpre : k.isPrefixOf (d :: s') = true
      · rw [reTestF_step_some _ fuel b (d :: s') k.length
          (by rw [reMatchLen_lits, if_pos hpre])]
        simp [hasSub, hpre]
      · have hpre' : k.isPrefixOf (d :: s') = false := by
          cases h2 : k.isPrefixOf (d :: s')
          · rfl
          · exact absurd h2 hpre
        rw [reTestF_step_none_cons _ fuel b d s'
          (by rw [reMatchLen_lits, hpre']; rfl)]
        rw [reTestF_lits hk fuel s' false (by simpa using hf)]
        simp [hasSub, hpre']

/-- For a non-empty metachar-free keyword, the `$regex` test is literal
containment. -/
lemma reTest_eq_hasSub {k : Str} (hk : k ≠ []) (hlit : litOnly k = true)
    (s : Str) : reTest k s = hasSub k s := by
  unfold reTest
  rw [reAtoms_litOnly k hlit]
  exact reTestF_lits hk (s.length + 1) s true (by omega)

/-- One unfolding step of `reCountF` for a positive-length match. -/
lemma reCountF_step_succ (atoms : List RAtom) (fuel : Nat) (b : Bool)
    (s : Str) (n : Nat) (h : reMatchLen atoms s b = some (n + 1)) :
    reCountF atoms (fuel + 1) b s =
      1 + reCountF atoms fuel false (s.drop (n + 1)) := by
  cases s <;> simp only [reCountF, h]

/-- One unfolding step of `reCountF` for a failing position at the end. -/
lemma reCountF_step_none_nil (atoms : List RAtom) (fuel : Nat) (b : Bool)
    (h : reMatchLen atoms [] b = none) :
    reCountF atoms (fuel + 1) b [] = 0 := by
  simp only [reCountF, h]

/-- One unfolding step of `reCountF` for a failing position mid-string. -/
lemma reCountF_step_none_cons (atoms : List RAtom) (fuel : Nat) (b : Bool)
    (d : Char) (s' : Str) (h : reMatchLen atoms (d :: s') b = none) :
    reCountF atoms (fuel + 1) b (d :: s') = reCountF atoms fuel false s' := by
  simp only [reCountF, h]

lemma reCountF_lits {c0 : Char} {k' : Str} :
    ∀ (fuel1 : Nat) (s : Str) (fuel2 : Nat) (b : Bool), s.length < fuel1 →
      s.length ≤ fuel2 →
      reCountF ((c0 :: k').map RAtom.lit) fuel1 b s =
        countOccurF (c0 :: k') fuel2 s
  | 0, _, _, _, hf, _ => by omega
  | fuel1 + 1, s, fuel2, b, hf, hf2 => by
    rcases s with _ | ⟨d, s'⟩
    · rw [reCountF_step_none_nil _ fuel1 b
        (by rw [reMatchLen_lits,
          isPrefixOf_nil_eq_false (List.cons_ne_nil c0 k')]; rfl)]
      cases fuel2 <;> rfl
    · rcases fuel2 with _ | f2
      · simp at hf2
      · by_cases hpre : (c0 :: k').isPrefixOf (d :: s') = true
        · rw [reCountF_step_succ _ fuel1 b (d :: s') k'.length
            (by rw [reMatchLen_lits, if_pos hpre]; rfl)]
          rw [show countOccurF (c0 :: k') (f2 + 1) (d :: s') =
              1 + countOccurF (c0 :: k') f2 (s'.drop ((c0 :: k').length - 1))
              from by simp only [countOccurF, if_pos hpre]]
          simp only [List.drop_succ_cons, List.length_cons,
            Nat.add_sub_cancel]
          rw [reCountF_lits fuel1 (s'.drop k'.length) f2 false
            (by simp at hf ⊢; omega) (by simp at hf2 ⊢; omega)]
        · have hpre' : (c0 :: k').isPrefixOf (d :: s') = false := by
            cases h2 : (c0 :: k').isPrefixOf (d :: s')
            · rfl
            · exact absurd h2 hpre
          rw [reCountF_step_none_cons _ fuel1 b d s'
            (by rw [reMatchLen_lits, hpre']; rfl)]
          rw [show countOccurF (c0 :: k') (f2 + 1) (d :: s') =
              countOccurF (c0 :: k') f2 s' from by
                simp only [countOccurF, hpre', Bool.false_eq_true, if_false]]
          rw [reCountF_lits fuel1 s' f2 false (by simpa using hf)
            (by simpa using hf2)]

/-- For a non-empty metachar-free keyword, the scorer's global regex count
is the literal occurrence count. -/
lemma reCount_eq_countOccur {k : Str} (hk : k ≠ []) (hlit : litOnly k = true)
    (s : Str) : reCount k s = countOccur k s := by
  obtain ⟨c0, k', rfl⟩ := List.exists_cons_of_ne_nil hk
  unfold reCount countOccur
  rw [reAtoms_litOnly _ hlit]
  exact reCountF_lits (s.length + 1) s s.length true (by omega) le_rfl

lemma keywordsOf_mem_ne_nil {q k : Str} (hk : k ∈ keywordsOf q) : k ≠ [] := by
  have h2 := (List.mem_filter.1 hk).2
  intro hnil
  rw [hnil] at h2
  simp at h2

lemma foldl_score_safe (s : Str) :
    ∀ (kws : List Str) (a : Nat),
      (∀ k ∈ kws, k ≠ [] ∧ litOnly k = true) →
      kws.foldl (fun acc k => acc + reCount k s * 15) a =
        a + 15 * totalOccur kws s
  | [], a, _ => by simp [totalOccur]
  | k :: kws, a, h => by
    simp only [List.foldl_cons, totalOccur, List.map_cons, List.sum_cons]
    rw [reCount_eq_countOccur (h k (by simp)).1 (h k (by simp)).2,
      foldl_score_safe s kws _ (fun t ht => h t (by simp [ht]))]
    simp only [totalOccur]
    ring

/-- For metachar-free keywords the code's score is the claimed occurrence
formula. -/
lemma scoreChunk100_eq_safe (kws : List Str) (c : ChunkDoc)
    (h : ∀ k ∈ kws, k ≠ [] ∧ litOnly k = true) :
    scoreChunk100 kws c =
      min 100
        (15 * totalOccur kws (lowerStr (c.text ++ ' ' :: c.sectionTitle))) := by
  simp only [scoreChunk100]
  rw [foldl_score_safe _ kws 0 h]
  simp [Nat.min_comm]

/-- Every passage returned by the keyword-regex stage comes from a stored
chunk of the tenant that passes the `$or` filter, carries the heuristic
score of that chunk, and survived the 0.1 threshold. -/
lemma mem_fallbackRegexStage {chunks : List ChunkDoc} {tid : Str}
    {st : Option Str} {q : Str} {lim : Nat} {p : Passage}
    (hp : p ∈ fallbackRegexStage chunks tid st q lim) :
    ∃ c, c ∈ chunks ∧ tenantTypeMatch tid st c = true ∧
      chunkMatchesOr (keywordsOf q) c = true ∧
      p = mkPassage c (scoreChunk100 (keywordsOf q) c) ∧ 10 < p.score := by
  simp only [fallbackRegexStage] at hp
  have hp1 := List.take_subset _ _ hp
  rw [mem_sortByScoreDesc] at hp1
  have hp2 := List.mem_filter.1 hp1
  obtain ⟨c, hc, rfl⟩ := List.mem_map.1 hp2.1
  have hc1 := List.take_subset _ _ hc
  have hc2 := List.mem_filter.1 hc1
  have hc3 := List.mem_filter.1 hc2.1
  exact ⟨c, hc3.1, hc3.2, hc2.2, rfl, by simpa using hp2.2⟩

/-- C3: the strict tier order with fall-through.  A vector-tier error or an
empty vector result falls through to `fallbackTextSearch` (no error is
propagated — `search` is total); a non-empty full-text result is returned
as-is with no further fallback; and when all three tiers yield zero
passages, `search` returns the empty list. -/
theorem tiered_search_fallthrough :
    (∀ tt rf chunks tid st q lim e,
      search (.error e) tt rf chunks tid st q lim =
        fallbackTextSearch tt rf chunks tid st q lim) ∧
    (∀ tt rf chunks tid st q lim,
      search (.ok []) tt rf chunks tid st q lim =
        fallbackTextSearch tt rf chunks tid st q lim) ∧
    (∀ rf chunks tid st q lim (l : List Passage), l ≠ [] →
      fallbackTextSearch (.ok l) rf chunks tid st q lim = l) ∧
    (∀ chunks tid st q lim,
      fallbackRegexStage chunks tid st q lim = [] →
      search (.ok []) (.ok []) false chunks tid st q lim = []) := by
  refine ⟨fun _ _ _ _ _ _ _ _ => rfl, fun _ _ _ _ _ _ _ => rfl,
    fun _ _ _ _ _ _ l hl => ?_, fun chunks tid st q lim h => ?_⟩
  · simp [fallbackTextSearch, List.length_pos.2 hl]
  · simp [search, fallbackTextSearch, h]

/-- Witness for C3: a non-empty full-text result is returned as-is, and with
every tier empty the search returns the empty sequence. -/
theorem tiered_search_fallthrough_witness :
    fallbackTextSearch (.ok [mkPassage demoChunk 30]) false [] "t1".toList
        none "faq".toList 5 = [mkPassage demoChunk 30] ∧
      search (.ok []) (.ok []) false [] "t1".toList none "faq".toList 5 =
        [] :=
  ⟨tiered_search_fallthrough.2.2.1 false [] "t1".toList none "faq".toList 5
      [mkPassage demoChunk 30] (by decide),
    tiered_search_fallthrough.2.2.2 [] "t1".toList none "faq".toList 5
      (by decide)⟩

/-- Counterexample for C8: a failure inside the keyword-regex tier does not
surface as an error — it is converted into the empty result.  With a healthy
store the same query returns a passage; with the keyword-tier database call
failing it returns `[]`, indistinguishable from "no results" (the function
is total, so no error can reach the caller). -/
theorem keyword_tier_failure_not_fatal :
    fallbackTextSearch (.ok []) true [demoChunk] "t1".toList none
        "free shipping".toList 5 = [] ∧
      fallbackTextSearch (.ok []) false [demoChunk] "t1".toList none
        "free shipping".toList 5 = [mkPassage demoChunk 30] := by
  decide

/-- C8 amended: a failure inside the keyword-regex tier is caught by the
outer `catch` of `fallbackTextSearch` and swallowed: whenever the full-text
tier did not already return a non-empty result, the query completes with the
empty sequence instead of an internal error. -/
theorem keyword_tier_failure_swallowed (tt : Except Unit (List Passage))
    (chunks : List ChunkDoc) (tid : Str) (st : Option Str) (q : Str)
    (lim : Nat) (h : tt = .error () ∨ tt = .ok []) :
    fallbackTextSearch tt true chunks tid st q lim = [] := by
  rcases h with rfl | rfl <;> simp [fallbackTextSearch]

/-- Witness for C8's amended claim at a concrete failing input. -/
theorem keyword_tier_failure_swallowed_witness :
    fallbackTextSearch (.ok []) true [partialChunk] "t1".toList none
        "free shipping".toList 5 = [] :=
  keyword_tier_failure_swallowed (.ok []) [partialChunk] "t1".toList none
    "free shipping".toList 5 (Or.inr rfl)

/-- Counterexample for C4: the keyword tier is not conjunctive.  For the
query "free shipping" a chunk whose text contains "free" but whose text and
title both lack "shipping" is returned (the `$or` filter's per-keyword arms
match any single keyword, and one occurrence scores 0.15 > 0.1). -/
theorem keyword_tier_not_conjunctive :
    ¬ (∀ p ∈ fallbackRegexStage [partialChunk] "t1".toList none
          "free shipping".toList 5,
        ∀ k ∈ keywordsOf "free shipping".toList,
          (hasSub k (lowerStr p.text) || hasSub k (lowerStr p.sectionTitle))
            = true) := by
  decide

/-- C4 amended: for a query all of whose keywords are free of regex
metacharacters (so the code's raw-keyword regexes are literal tests), every
passage returned by the keyword-regex tier contains at least one query
keyword in its chunk text, or every query keyword in its section title —
the disjunction the code's `$or` filter actually enforces, combined with
the score threshold which guarantees at least one keyword occurrence.  (For
keywords with metacharacters the `$or` arms and the scorer interpret the
keyword as a regex, so even this disjunction need not relate to literal
occurrence.) -/
theorem keyword_tier_match_disjunctive (chunks : List ChunkDoc) (tid : Str)
    (st : Option Str) (q : Str) (lim : Nat) (p : Passage)
    (hsafe : ∀ k ∈ keywordsOf q, litOnly k = true)
    (hp : p ∈ fallbackRegexStage chunks tid st q lim) :
    (∃ k ∈ keywordsOf q, hasSub k (lowerStr p.text) = true) ∨
      (∀ k ∈ keywordsOf q, hasSub k (lowerStr p.sectionTitle) = true) := by
  obtain ⟨c, -, -, hor, rfl, hscore⟩ := mem_fallbackRegexStage hp
  have hkws : keywordsOf q ≠ [] := by
    intro hnil
    rw [hnil] at hscore
    simp [mkPassage, scoreChunk100] at hscore
  simp only [chunkMatchesOr, Bool.or_eq_true] at hor
  rcases hor with (hconj | htitle) | hsome
  · simp only [conjMatch, List.all_eq_true] at hconj
    obtain ⟨k0, ks, hks⟩ := List.exists_cons_of_ne_nil hkws
    exact Or.inl ⟨k0, by rw [hks]; exact List.mem_cons_self k0 ks,
      hconj k0 (by rw [hks]; exact List.mem_cons_self k0 ks)⟩
  · simp only [conjMatch, List.all_eq_true] at htitle
    exact Or.inr htitle
  · simp only [someTextMatch, List.any_eq_true] at hsome
    obtain ⟨k, hk, htest⟩ := hsome
    refine Or.inl ⟨k, hk, ?_⟩
    rw [← reTest_eq_hasSub (keywordsOf_mem_ne_nil hk) (hsafe k hk)]
    exact htest

/-- Witness for C4's amended claim: the partially-matching chunk's passage
indeed satisfies the disjunction for the metachar-free query. -/
theorem keyword_tier_match_disjunctive_witness :
    (∃ k ∈ keywordsOf "free shipping".toList,
      hasSub k (lowerStr (mkPassage partialChunk 15).text) = true) ∨
      (∀ k ∈ keywordsOf "free shipping".toList,
        hasSub k (lowerStr (mkPassage partialChunk 15).sectionTitle) =
          true) :=
  keyword_tier_match_disjunctive [partialChunk] "t1".toList none
    "free shipping".toList 5 (mkPassage partialChunk 15) (by decide)
    (by decide)

/-- A chunk whose text contains the keyword "$50" literally.  As a regex,
`new RegExp("$50")` can never match ($ is an end-of-input anchor), so the
scorer counts 0 occurrences for it. -/
def dollarChunk : ChunkDoc :=
  ⟨"t1".toList, "s3".toList, "c3".toList, "faq".toList, "promo".toList,
    "you win $50 today".toList, 0, 0⟩

/-- Counterexample for C5: the per-passage score is not
`min(1.0, 0.15 × literal keyword occurrences)`.  For the query "win $50"
(keywords "win" and "$50") against a chunk whose text contains both
literally, the passage is returned — the escaped conjunctive `$or` arm
admits it — but the scorer treats "$50" as the regex `$50`, which never
matches, so the program scores 0.15 (one "win" hit) where the claimed
formula demands 0.30 (two literal occurrences). -/
theorem keyword_tier_score_not_occurrence_count :
    mkPassage dollarChunk 15 ∈
        fallbackRegexStage [dollarChunk] "t1".toList none "win $50".toList
          5 ∧
      (mkPassage dollarChunk 15).score ≠
        min 100 (15 * totalOccur (keywordsOf "win $50".toList)
          (lowerStr ((mkPassage dollarChunk 15).text ++ ' ' ::
            (mkPassage dollarChunk 15).sectionTitle))) := by
  decide

/-- C5 amended: for a query all of whose keywords are free of regex
metacharacters (where the code's `new RegExp(keyword, 'gi')` counting is
literal), every passage returned by the keyword-regex tier is scored
`min(1.0, 0.15 × total keyword occurrences in text + ' ' + title)` (stated
in exact hundredths: `min 100 (15 × occurrences)`), every returned score
exceeds 0.1 (10 hundredths), the output is sorted by non-increasing score,
and at most `limit` passages are returned.  For keywords with regex
metacharacters the program's regex-based count diverges from the
occurrence formula (`keyword_tier_score_not_occurrence_count`). -/
theorem keyword_tier_scoring (chunks : List ChunkDoc) (tid : Str)
    (st : Option Str) (q : Str) (lim : Nat)
    (hsafe : ∀ k ∈ keywordsOf q, litOnly k = true) :
    (∀ p ∈ fallbackRegexStage chunks tid st q lim,
      p.score = min 100 (15 * totalOccur (keywordsOf q)
          (lowerStr (p.text ++ ' ' :: p.sectionTitle))) ∧
        10 < p.score) ∧
    (fallbackRegexStage chunks tid st q lim).Pairwise
      (fun a b => b.score ≤ a.score) ∧
    (fallbackRegexStage chunks tid st q lim).length ≤ lim := by
  refine ⟨fun p hp => ?_, ?_, ?_⟩
  · obtain ⟨c, -, -, -, rfl, hscore⟩ := mem_fallbackRegexStage hp
    refine ⟨?_, hscore⟩
    have h := scoreChunk100_eq_safe (keywordsOf q) c
      (fun k hk => ⟨keywordsOf_mem_ne_nil hk, hsafe k hk⟩)
    simpa [mkPassage] using h
  · exact (pairwise_sortByScoreDesc _).sublist (List.take_sublist _ _)
  · exact List.length_take_le _ _

/-- Witness for C5's amended claim at the spec's §8 scenario: the
metachar-free query "free shipping" over the demo chunk returns one passage
scored 0.30 (two hits × 0.15). -/
theorem keyword_tier_scoring_witness :
    (mkPassage demoChunk 30).score =
        min 100 (15 * totalOccur (keywordsOf "free shipping".toList)
          (lowerStr ((mkPassage demoChunk 30).text ++ ' ' ::
            (mkPassage demoChunk 30).sectionTitle))) ∧
      10 < (mkPassage demoChunk 30).score :=
  (keyword_tier_scoring [demoChunk] "t1".toList none "free shipping".toList
      5 (by decide)).1 (mkPassage demoChunk 30) (by decide)

/-! ## Chunker lemmas (towards C9 and C10) -/

lemma jsSplitGo_ne_nil : ∀ (cs : Str) (b : Bool) (acc : Str),
    jsSplitGo cs b acc ≠ []
  | [], _, _ => by simp [jsSplitGo]
  | c :: rest, b, acc => by
    simp only [jsSplitGo]
    split_ifs <;>
      first
        | exact jsSplitGo_ne_nil rest _ _
        | simp

/-- Relation between the JavaScript split and the spec tokenization: in the
middle of a token (`acc ≠ []`, not after whitespace) and directly after a
whitespace run, the JavaScript split produces exactly the spec tokens, up to
one extra empty trailing piece. -/
lemma jsSplitGo_vs_refTokensGo : ∀ cs : Str,
    (∀ acc, acc ≠ [] →
      jsSplitGo cs false acc = refTokensGo cs acc ∨
        jsSplitGo cs false acc = refTokensGo cs acc ++ [[]]) ∧
    (jsSplitGo cs true [] = refTokensGo cs [] ∨
      jsSplitGo cs true [] = refTokensGo cs [] ++ [[]])
  | [] => by
    constructor
    · intro acc hacc
      left
      simp [jsSplitGo, refTokensGo, List.isEmpty_iff, hacc]
    · right
      simp [jsSplitGo, refTokensGo]
  | c :: rest => by
    have ih := jsSplitGo_vs_refTokensGo rest
    constructor
    · intro acc hacc
      by_cases hws : isWsChar c
      · have h1 : jsSplitGo (c :: rest) false acc =
            acc.reverse :: jsSplitGo rest true [] := by
          simp [jsSplitGo, hws]
        have h2 : refTokensGo (c :: rest) acc =
            acc.reverse :: refTokensGo rest [] := by
          simp [refTokensGo, hws, List.isEmpty_iff, hacc]
        rw [h1, h2]
        rcases ih.2 with h | h
        · left
          rw [h]
        · right
          rw [h, List.cons_append]
      · have h1 : jsSplitGo (c :: rest) false acc =
            jsSplitGo rest false (c :: acc) := by
          simp [jsSplitGo, hws]
        have h2 : refTokensGo (c :: rest) acc =
            refTokensGo rest (c :: acc) := by
          simp [refTokensGo, hws]
        rw [h1, h2]
        exact ih.1 (c :: acc) (List.cons_ne_nil c acc)
    · by_cases hws : isWsChar c
      · have h1 : jsSplitGo (c :: rest) true [] =
            jsSplitGo rest true [] := by
          simp [jsSplitGo, hws]
        have h2 : refTokensGo (c :: rest) [] = refTokensGo rest [] := by
          simp [refTokensGo, hws]
        rw [h1, h2]
        exact ih.2
      · have h1 : jsSplitGo (c :: rest) true [] =
            jsSplitGo rest false [c] := by
          simp [jsSplitGo, hws]
        have h2 : refTokensGo (c :: rest) [] = refTokensGo rest [c] := by
          simp [refTokensGo, hws]
        rw [h1, h2]
        exact ih.1 [c] (List.cons_ne_nil c [])

/-- For a text with no leading whitespace, the JavaScript split is the spec
tokenization, possibly with one empty trailing piece (present exactly when
the text is empty or ends in whitespace). -/
lemma jsSplitWs_cases (text : Str)
    (hlead : ∀ c, text.head? = some c → isWsChar c = false) :
    jsSplitWs text = refTokens text ∨
      jsSplitWs text = refTokens text ++ [[]] := by
  rcases text with _ | ⟨c, rest⟩
  · right
    simp [jsSplitWs, jsSplitGo, refTokens, refTokensGo]
  · have hc : isWsChar c = false := hlead c rfl
    simp only [jsSplitWs, jsSplitGo, refTokens, refTokensGo, hc,
      Bool.false_eq_true, if_false]
    exact (jsSplitGo_vs_refTokensGo rest).1 [c] (List.cons_ne_nil c [])

/-- Every spec token is non-empty and whitespace-free. -/
lemma refTokensGo_shape : ∀ (cs acc : Str),
    (∀ c ∈ acc, isWsChar c = false) →
    ∀ t ∈ refTokensGo cs acc, t ≠ [] ∧ ∀ c ∈ t, isWsChar c = false
  | [], acc, hacc => by
    intro t ht
    simp only [refTokensGo] at ht
    split_ifs at ht with hemp
    · simp at ht
    · simp only [List.mem_singleton] at ht
      subst ht
      refine ⟨by simpa [List.isEmpty_iff] using hemp, ?_⟩
      intro c hc
      exact hacc c (List.mem_reverse.1 hc)
  | a :: rest, acc, hacc => by
    intro t ht
    by_cases hws : isWsChar a
    · rw [show refTokensGo (a :: rest) acc =
          (if acc.isEmpty then [] else [acc.reverse]) ++ refTokensGo rest []
          from by simp [refTokensGo, hws], List.mem_append] at ht
      rcases ht with ht | ht
      · by_cases hemp : acc.isEmpty
        · rw [if_pos hemp] at ht
          simp at ht
        · rw [if_neg hemp] at ht
          simp only [List.mem_singleton] at ht
          subst ht
          refine ⟨by simpa [List.isEmpty_iff] using hemp, ?_⟩
          intro c hc
          exact hacc c (List.mem_reverse.1 hc)
      · exact refTokensGo_shape rest [] (by simp) t ht
    · rw [show refTokensGo (a :: rest) acc = refTokensGo rest (a :: acc)
        from by simp [refTokensGo, hws]] at ht
      refine refTokensGo_shape rest (a :: acc) ?_ t ht
      intro c hc
      rcases List.mem_cons.1 hc with rfl | hc
      · simpa using hws
      · exact hacc c hc

lemma refTokens_shape (text : Str) :
    ∀ t ∈ refTokens text, t ≠ [] ∧ ∀ c ∈ t, isWsChar c = false :=
  refTokensGo_shape text [] (by simp)

lemma dropWhile_ws_eq_self {l : Str}
    (h : ∀ c, l.head? = some c → isWsChar c = false) :
    l.dropWhile isWsChar = l := by
  rcases l with _ | ⟨c, rest⟩
  · rfl
  · rw [List.dropWhile_cons, h c rfl]
    simp

lemma jsTrim_eq_self {l : Str}
    (h1 : ∀ c, l.head? = some c → isWsChar c = false)
    (h2 : ∀ c, l.getLast? = some c → isWsChar c = false) :
    jsTrim l = l := by
  unfold jsTrim
  rw [dropWhile_ws_eq_self h1, dropWhile_ws_eq_self
    (by simpa [List.head?_reverse] using h2), List.reverse_reverse]

lemma jsTrim_append_space {l : Str} (hne : l ≠ [])
    (h1 : ∀ c, l.head? = some c → isWsChar c = false)
    (h2 : ∀ c, l.getLast? = some c → isWsChar c = false) :
    jsTrim (l ++ [' ']) = l := by
  unfold jsTrim
  have hfront : (l ++ [' ']).dropWhile isWsChar = l ++ [' '] := by
    refine dropWhile_ws_eq_self ?_
    intro c hc
    rcases l with _ | ⟨a, rest⟩
    · exact absurd rfl hne
    · exact h1 c (by simpa using hc)
  rw [hfront, List.reverse_append]
  show ((' ' :: l.reverse).dropWhile isWsChar).reverse = l
  rw [List.dropWhile_cons]
  have : isWsChar ' ' = true := by decide
  rw [this]
  simp only [if_true]
  rw [dropWhile_ws_eq_self (by simpa [List.head?_reverse] using h2),
    List.reverse_reverse]

lemma joinSpace_head? : ∀ (t : Str) (ts : List Str), t ≠ [] →
    (joinSpace (t :: ts)).head? = t.head?
  | t, [], _ => rfl
  | t, u :: ts, hne => by
    rcases t with _ | ⟨c, rest⟩
    · exact absurd rfl hne
    · rfl

lemma joinSpace_ne_nil : ∀ (ts : List Str),
    (∀ t ∈ ts, t ≠ []) → ts ≠ [] → joinSpace ts ≠ []
  | [], _, hne => absurd rfl hne
  | [t], hts, _ => by simpa [joinSpace] using hts t (by simp)
  | t :: u :: ts, hts, _ => by
    have : t ≠ [] := hts t (by simp)
    rcases t with _ | ⟨c, rest⟩
    · exact absurd rfl this
    · simp [joinSpace]

lemma joinSpace_getLast_not_ws :
    ∀ (ts : List Str), (∀ t ∈ ts, t ≠ [] ∧ ∀ c ∈ t, isWsChar c = false) →
      ∀ c, (joinSpace ts).getLast? = some c → isWsChar c = false
  | [], _, c, hc => by simp [joinSpace] at hc
  | [t], hts, c, hc => by
    refine (hts t (by simp)).2 c ?_
    exact List.mem_of_mem_getLast? (by simpa [joinSpace] using hc)
  | t :: u :: ts, hts, c, hc => by
    refine joinSpace_getLast_not_ws (u :: ts)
      (fun v hv => hts v (List.mem_cons_of_mem t hv)) c ?_
    have hjoin : joinSpace (t :: u :: ts) = t ++ ' ' :: joinSpace (u :: ts) :=
      rfl
    rw [hjoin, List.getLast?_append_cons] at hc
    have hne : joinSpace (u :: ts) ≠ [] :=
      joinSpace_ne_nil (u :: ts)
        (fun v hv => (hts v (List.mem_cons_of_mem t hv)).1) (by simp)
    rcases List.exists_cons_of_ne_nil hne with ⟨d, l, hdl⟩
    rw [hdl] at hc ⊢
    simpa [List.getLast?_cons_cons] using hc

lemma joinSpace_head_not_ws (ts : List Str)
    (hts : ∀ t ∈ ts, t ≠ [] ∧ ∀ c ∈ t, isWsChar c = false) :
    ∀ c, (joinSpace ts).head? = some c → isWsChar c = false := by
  rcases ts with _ | ⟨t, ts⟩
  · intro c hc
    simp [joinSpace] at hc
  · intro c hc
    rw [joinSpace_head? t ts (hts t (by simp)).1] at hc
    exact (hts t (by simp)).2 c (List.mem_of_mem_head? hc)

/-- A window of non-empty whitespace-free tokens joins to a non-empty string
that trimming leaves unchanged. -/
lemma window_trim (ts : List Str)
    (hts : ∀ t ∈ ts, t ≠ [] ∧ ∀ c ∈ t, isWsChar c = false) (hne : ts ≠ []) :
    jsTrim (joinSpace ts) = joinSpace ts ∧ joinSpace ts ≠ [] :=
  ⟨jsTrim_eq_self (joinSpace_head_not_ws ts hts)
      (joinSpace_getLast_not_ws ts hts),
    joinSpace_ne_nil ts (fun t ht => (hts t ht).1) hne⟩

lemma joinSpace_append_empty : ∀ (ts : List Str), ts ≠ [] →
    joinSpace (ts ++ [[]]) = joinSpace ts ++ [' ']
  | [], hne => absurd rfl hne
  | [t], _ => rfl
  | t :: u :: ts, _ => by
    have ih := joinSpace_append_empty (u :: ts) (by simp)
    show t ++ ' ' :: joinSpace ((u :: ts) ++ [[]]) =
      (t ++ ' ' :: joinSpace (u :: ts)) ++ [' ']
    rw [ih]
    simp

/-- A window consisting of non-empty whitespace-free tokens followed by the
one empty trailing split piece trims to the join of the tokens alone. -/
lemma window_trim_trailing (ts : List Str)
    (hts : ∀ t ∈ ts, t ≠ [] ∧ ∀ c ∈ t, isWsChar c = false) (hne : ts ≠ []) :
    jsTrim (joinSpace (ts ++ [[]])) = joinSpace ts := by
  rw [joinSpace_append_empty ts hne]
  exact jsTrim_append_space
    (joinSpace_ne_nil ts (fun t ht => (hts t ht).1) hne)
    (joinSpace_head_not_ws ts hts) (joinSpace_getLast_not_ws ts hts)

/-- For a non-negative start index, `slice(i, i + n)` is drop-then-take. -/
lemma jsSlice_nonneg (l : List Str) (i n : Nat) :
    jsSlice l (i : Int) ((i : Int) + (n : Int)) = (l.drop i).take n := by
  simp only [jsSlice]
  have hs : (if (i : Int) < 0 then max ((l.length : Int) + i) 0
      else min (i : Int) (l.length : Int)).toNat = min i l.length := by
    rw [if_neg (by omega)]
    omega
  have he : (if (i : Int) + (n : Int) < 0 then
      max ((l.length : Int) + ((i : Int) + n)) 0
      else min ((i : Int) + (n : Int)) (l.length : Int)).toNat =
        min (i + n) l.length := by
    rw [if_neg (by omega)]
    omega
  rw [hs, he]
  by_cases hil : l.length ≤ i
  · rw [min_eq_right hil, List.drop_eq_nil_of_le (by
      simpa using Nat.le_trans (List.length_take_le _ _) hil)]
    rw [List.drop_eq_nil_of_le hil]
    simp
  · push_neg at hil
    rw [min_eq_left (by omega), List.drop_take]
    by_cases hin : i + n ≤ l.length
    · rw [min_eq_left hin]
      congr 1
      omega
    · rw [min_eq_right (by omega)]
      rw [List.take_all_of_le (by simp),
        List.take_all_of_le (by simp; omega)]

lemma refWindows_stop (tokens : List Str) (cs stepM1 : Nat) :
    ∀ (fuel i : Nat), tokens.length ≤ i →
      refWindows tokens cs stepM1 fuel i = []
  | 0, _, _ => rfl
  | _ + 1, i, h => by
    simp only [refWindows]
    rw [if_neg (by omega)]

lemma refWindows_fuel_irrel (tokens : List Str) (cs stepM1 : Nat) :
    ∀ (f1 f2 i : Nat), tokens.length + 1 ≤ f1 + i →
      tokens.length + 1 ≤ f2 + i →
      refWindows tokens cs stepM1 f1 i = refWindows tokens cs stepM1 f2 i
  | 0, f2, i, h1, _ => by
    simp only [refWindows]
    rw [refWindows_stop tokens cs stepM1 f2 i (by omega)]
  | f1 + 1, f2, i, h1, h2 => by
    by_cases hi : i < tokens.length
    · obtain ⟨f2x, rfl⟩ : ∃ f2x, f2 = f2x + 1 := ⟨f2 - 1, by omega⟩
      simp only [refWindows]
      rw [if_pos hi, if_pos hi,
        refWindows_fuel_irrel tokens cs stepM1 f1 f2x (i + (stepM1 + 1))
          (by omega) (by omega)]
    · rw [refWindows_stop tokens cs stepM1 (f1 + 1) i (by omega),
        refWindows_stop tokens cs stepM1 f2 i (by omega)]

lemma refWindows_mem_ne_nil (tokens : List Str) (cs stepM1 : Nat) :
    ∀ (fuel i : Nat) (w : Str),
      w ∈ refWindows tokens cs stepM1 fuel i → w ≠ []
  | 0, i, w, hw => by simp [refWindows] at hw
  | fuel + 1, i, w, hw => by
    simp only [refWindows] at hw
    by_cases hi : i < tokens.length
    · rw [if_pos hi, List.mem_append] at hw
      rcases hw with hw | hw
      · by_cases h0 :
            0 < (jsTrim (joinSpace ((tokens.drop i).take cs))).length
        · rw [if_pos h0] at hw
          simp only [List.mem_singleton] at hw
          subst hw
          intro hnil
          rw [hnil] at h0
          simp at h0
        · rw [if_neg h0] at hw
          simp at hw
      · exact refWindows_mem_ne_nil tokens cs stepM1 fuel _ w hw
    · rw [if_neg hi] at hw
      simp at hw

/-- The heart of C9: over a word list of the shape produced by the
JavaScript split of a text with no leading whitespace (the spec tokens,
possibly followed by one empty trailing piece), the code's loop produces
exactly the reference windows. -/
lemma chunkLoop_eq_refWindows (tokens tail : List Str)
    (htok : ∀ t ∈ tokens, t ≠ [] ∧ ∀ c ∈ t, isWsChar c = false)
    (htail : tail = [] ∨ tail = [[]]) (cs ov : Nat) (hov : ov < cs) :
    ∀ (fuel i : Nat) (acc : List Str), 1 ≤ fuel →
      (tokens ++ tail).length + 1 ≤ fuel + i →
      chunkLoop (tokens ++ tail) cs ov fuel (i : Int) acc =
        some (acc ++
          refWindows tokens cs (cs - ov - 1) (tokens.length + 1) i) := by
  intro fuel
  induction fuel with
  | zero =>
    intro i acc hf _
    omega
  | succ fuel ih =>
    intro i acc _ hb
    have hlen : (tokens ++ tail).length = tokens.length + tail.length :=
      List.length_append _ _
    have htlen : tail.length ≤ 1 := by
      rcases htail with rfl | rfl <;> simp
    by_cases hiw : i < (tokens ++ tail).length
    · have hiw' : (i : Int) < ((tokens ++ tail).length : Int) := by
        exact_mod_cast hiw
      have hfuel1 : 1 ≤ fuel := by omega
      have hcast : (i : Int) + ((cs : Int) - (ov : Int)) =
          ((i + (cs - ov) : Nat) : Int) := by
        push_cast
        omega
      by_cases hit : i < tokens.length
      · -- the window still contains at least one token
        have hdrop : (tokens ++ tail).drop i = tokens.drop i ++ tail := by
          rw [List.drop_append_eq_append_drop,
            Nat.sub_eq_zero_of_le (le_of_lt hit), List.drop_zero]
        have hslice : jsSlice (tokens ++ tail) (i : Int) ((i : Int) + cs) =
            (tokens.drop i).take cs ++
              tail.take (cs - (tokens.drop i).length) := by
          rw [jsSlice_nonneg, hdrop, List.take_append_eq_append_take]
        have hWmem : ∀ t ∈ (tokens.drop i).take cs,
            t ≠ [] ∧ ∀ c ∈ t, isWsChar c = false := fun t ht =>
          htok t (List.drop_subset _ _ (List.take_subset _ _ ht))
        have hWne : (tokens.drop i).take cs ≠ [] := by
          rw [Ne, List.take_eq_nil_iff]
          push_neg
          refine ⟨by omega, ?_⟩
          rw [Ne, List.drop_eq_nil_iff]
          omega
        have htrimW : jsTrim (joinSpace ((tokens.drop i).take cs)) =
            joinSpace ((tokens.drop i).take cs) :=
          (window_trim _ hWmem hWne).1
        have hjoin_ne : joinSpace ((tokens.drop i).take cs) ≠ [] :=
          (window_trim _ hWmem hWne).2
        have htrim : jsTrim (joinSpace ((tokens.drop i).take cs ++
            tail.take (cs - (tokens.drop i).length))) =
              joinSpace ((tokens.drop i).take cs) := by
          rcases htail with rfl | rfl
          · rw [List.take_nil, List.append_nil]
            exact htrimW
          · by_cases hc0 : cs - (tokens.drop i).length = 0
            · rw [hc0, List.take_zero, List.append_nil]
              exact htrimW
            · obtain ⟨m, hm⟩ : ∃ m, cs - (tokens.drop i).length = m + 1 :=
                ⟨cs - (tokens.drop i).length - 1, by omega⟩
              rw [hm, show List.take (m + 1) [([] : Str)] = [[]] from by simp]
              exact window_trim_trailing _ hWmem hWne
        simp only [chunkLoop]
        rw [if_pos hiw', hslice, htrim,
          if_pos (List.length_pos.2 hjoin_ne), hcast,
          ih (i + (cs - ov)) _ hfuel1 (by omega)]
        have hunfold : refWindows tokens cs (cs - ov - 1)
            (tokens.length + 1) i =
              [joinSpace ((tokens.drop i).take cs)] ++
                refWindows tokens cs (cs - ov - 1) tokens.length
                  (i + (cs - ov - 1 + 1)) := by
          simp only [refWindows]
          rw [if_pos hit, htrimW, if_pos (List.length_pos.2 hjoin_ne)]
        rw [hunfold, show cs - ov - 1 + 1 = cs - ov from by omega,
          refWindows_fuel_irrel tokens cs (cs - ov - 1) tokens.length
            (tokens.length + 1) (i + (cs - ov)) (by omega) (by omega),
          List.append_assoc]
      · -- the window contains only the empty trailing piece
        rcases htail with rfl | rfl
        · exfalso
          rw [hlen] at hiw
          simp at hiw
          omega
        · have hieq : i = tokens.length := by
            rw [hlen] at hiw
            simp at hiw
            omega
          have hslice : jsSlice (tokens ++ [[]]) (i : Int) ((i : Int) + cs) =
              [([] : Str)] := by
            rw [jsSlice_nonneg, List.drop_append_eq_append_drop, hieq,
              List.drop_eq_nil_of_le le_rfl, Nat.sub_self, List.drop_zero,
              List.nil_append]
            obtain ⟨m, rfl⟩ : ∃ m, cs = m + 1 := ⟨cs - 1, by omega⟩
            simp
          simp only [chunkLoop]
          rw [if_pos hiw', hslice,
            show joinSpace [([] : Str)] = [] from rfl,
            show jsTrim ([] : Str) = [] from rfl, if_neg (by simp), hcast,
            ih (i + (cs - ov)) acc hfuel1 (by omega),
            refWindows_stop tokens cs (cs - ov - 1) (tokens.length + 1)
              (i + (cs - ov)) (by omega),
            refWindows_stop tokens cs (cs - ov - 1) (tokens.length + 1) i
              (by omega)]
    · have hiw' : ¬ ((i : Int) < ((tokens ++ tail).length : Int)) := by
        push_neg
        exact_mod_cast Nat.le_of_not_lt hiw
      simp only [chunkLoop]
      rw [if_neg hiw',
        refWindows_stop tokens cs (cs - ov - 1) (tokens.length + 1) i
          (by rw [hlen] at hiw; omega)]
      simp

lemma chunkLoop_isSome (words : List Str) (cs ov : Nat) (hov : ov < cs) :
    ∀ (fuel : Nat) (i : Int) (acc : List Str), 1 ≤ fuel →
      (words.length : Int) + 1 ≤ (fuel : Int) + i →
      (chunkLoop words cs ov fuel i acc).isSome = true
  | 0, _, _, hf, _ => by omega
  | fuel + 1, i, acc, _, hb => by
    by_cases hi : i < (words.length : Int)
    · simp only [chunkLoop]
      rw [if_pos hi]
      exact chunkLoop_isSome words cs ov hov fuel _ _ (by omega)
        (by push_cast at hb ⊢; omega)
    · simp only [chunkLoop]
      rw [if_neg hi]
      rfl

lemma chunkText_isSome (text : Str) (cs ov : Nat) (hov : ov < cs) :
    (chunkText text cs ov).isSome = true := by
  simp only [chunkText]
  exact chunkLoop_isSome (jsSplitWs text) cs ov hov
    ((jsSplitWs text).length + 1) 0 [] (by omega) (by push_cast; omega)

lemma chunkLoop_nonterminating (words : List Str) (cs ov : Nat)
    (hws : words ≠ []) (hov : cs ≤ ov) :
    ∀ (fuel : Nat) (i : Int), i ≤ 0 → ∀ acc,
      chunkLoop words cs ov fuel i acc = none
  | 0, _, _, _ => rfl
  | fuel + 1, i, hi, acc => by
    have hlen : 0 < words.length := List.length_pos.2 hws
    simp only [chunkLoop]
    rw [if_pos (by push_cast; omega)]
    exact chunkLoop_nonterminating words cs ov hws hov fuel _
      (by push_cast; omega) _

/-- C10: `chunkText` terminates exactly under the precondition
`overlap < chunkSize`.  With `overlap < chunkSize` the loop finishes within
its fuel for every input; with `chunkSize ≤ overlap` and the text containing
at least one token, the loop index never makes progress (the step
`chunkSize - overlap` is ≤ 0) and no amount of fuel finishes the loop; and
the deployed configuration `CHUNK_CONFIG` (size 500, overlap 50) that every
call site passes satisfies the precondition. -/
theorem chunkText_termination :
    (∀ (text : Str) (cs ov : Nat), ov < cs →
      (chunkText text cs ov).isSome = true) ∧
    (∀ (text : Str) (cs ov : Nat), cs ≤ ov → refTokens text ≠ [] →
      ∀ (fuel : Nat) (acc : List Str),
        chunkLoop (jsSplitWs text) cs ov fuel 0 acc = none) ∧
    CHUNK_CONFIG.overlap < CHUNK_CONFIG.size := by
  refine ⟨fun text cs ov hov => chunkText_isSome text cs ov hov,
    fun text cs ov hov _ fuel acc => ?_, by decide⟩
  exact chunkLoop_nonterminating (jsSplitWs text) cs ov
    (jsSplitGo_ne_nil text false []) hov fuel 0 le_rfl acc

/-- Witness for C10: the deployed parameters terminate on a concrete text;
with overlap ≥ size the loop returns no result for any fuel (shown at
fuel 3). -/
theorem chunkText_termination_witness :
    (chunkText "hello world".toList 500 50).isSome = true ∧
      chunkLoop (jsSplitWs "a b".toList) 2 5 3 0 [] = none :=
  ⟨chunkText_termination.1 "hello world".toList 500 50 (by decide),
    chunkText_termination.2.1 "a b".toList 2 5 (by decide) (by decide) 3 []⟩

/-- Counterexample for C9: on a text with leading whitespace, `chunkText`
does not equal the reference sliding window over the text's tokens.  The
JavaScript split `" a b c".split(/\s+/)` yields `["", "a", "b", "c"]` — the
leading empty piece occupies a window slot and shifts every window boundary:
with windowSize 2 and overlap 0 the code returns `["a", "b c"]` while the
reference windows over the tokens `["a", "b", "c"]` are `["a b", "c"]`. -/
theorem chunkText_leading_ws_mismatch :
    chunkText " a b c".toList 2 0 = some ["a".toList, "b c".toList] ∧
      referenceChunk " a b c".toList 2 0 = ["a b".toList, "c".toList] ∧
      chunkText " a b c".toList 2 0 ≠
        some (referenceChunk " a b c".toList 2 0) := by
  decide

/-- C9 amended: for every text that does not begin with a whitespace
character (so the JavaScript split introduces no leading empty piece) and
every `windowSize > overlap`, `chunkText` equals the reference
sliding-window definition over the spec's tokens, and every emitted span is
non-empty.  (Determinism is immediate: the function is pure.)  On texts with
leading whitespace the two differ, as `chunkText_leading_ws_mismatch`
shows. -/
theorem chunkText_matches_reference (text : Str) (cs ov : Nat)
    (hov : ov < cs)
    (hlead : ∀ c, text.head? = some c → isWsChar c = false) :
    chunkText text cs ov = some (referenceChunk text cs ov) ∧
      ∀ w ∈ referenceChunk text cs ov, w ≠ [] := by
  have hmain : ∀ tail, tail = [] ∨ tail = [[]] →
      jsSplitWs text = refTokens text ++ tail →
      chunkText text cs ov = some (referenceChunk text cs ov) := by
    intro tail htail hsplit
    have h := chunkLoop_eq_refWindows (refTokens text) tail
      (refTokens_shape text) htail cs ov hov
      ((refTokens text ++ tail).length + 1) 0 [] (by omega) (by omega)
    rw [Nat.cast_zero] at h
    simp only [chunkText, referenceChunk]
    rw [hsplit, h, List.nil_append]
  constructor
  · rcases jsSplitWs_cases text hlead with hsplit | hsplit
    · exact hmain [] (Or.inl rfl) (by rw [hsplit, List.append_nil])
    · exact hmain [[]] (Or.inr rfl) hsplit
  · intro w hw
    exact refWindows_mem_ne_nil (refTokens text) cs (cs - ov - 1) _ 0 w
      (by simpa [referenceChunk] using hw)

/-- Witness for C9's amended claim on a concrete text with no leading
whitespace: code and reference agree. -/
theorem chunkText_matches_reference_witness :
    chunkText "a b c d e".toList 2 1 =
      some (referenceChunk "a b c d e".toList 2 1) :=
  (chunkText_matches_reference "a b c d e".toList 2 1 (by decide)
    (by intro c hc; simp at hc; subst hc; decide)).1

/-! ## Data service (`src/services/data.service.js`, `registerData`)

The Mongo `sections` and `chunks` collections are lists in insertion order.
`generateId.section()` / `generateId.chunk()` (nanoid-based) are modelled by
caller-supplied generator functions indexed by the position of the section
in the batch (and the chunk position); the embedding service
(`generateEmbeddings`, which for this code path never throws — it always
uses the mock strategy) is a caller-supplied pure function.  `metadata`
pass-through fields are omitted (no claim concerns them).  A thrown
validation error propagates (the service's `catch` only logs and rethrows),
while all writes performed before the throw remain in the store. -/

/-- One element of the `sections` array passed to `registerData`. -/
structure SectionInput where
  type : Str
  title : Str
  content : Str
deriving DecidableEq, Repr

/-- A document of the `sections` collection. -/
structure SectionDoc where
  tenantId : Str
  sectionId : Str
  type : Str
  title : Str
  content : Str
  chunkCount : Nat
  status : Str
deriving DecidableEq, Repr

/-- The document store: both collections, in insertion order. -/
structure Db where
  sections : List SectionDoc
  chunks : List ChunkDoc
deriving DecidableEq, Repr

/-- The errors `registerData` can throw. -/
inductive RegError
  | sectionLimitExceeded (allowed current attempting : Nat)
  | emptyContent (title : Str)
  | noChunks (title : Str)
deriving DecidableEq, Repr

/-- One element of the per-section `results` array. -/
structure SectionResult where
  sectionId : Str
  type : Str
  title : Str
  chunkCount : Nat
  status : Str
deriving DecidableEq, Repr

/-- The return value of `registerData`. -/
structure RegisterOutput where
  sectionsCreated : Nat
  chunksCreated : Nat
  sections : List SectionResult
deriving DecidableEq, Repr

/-- `chunkText(content, CHUNK_CONFIG.size, CHUNK_CONFIG.overlap)` — total
because 50 < 500 makes the loop terminate (`chunkText_isSome`). -/
def chunkText500 (content : Str) : List Str :=
  (chunkText content CHUNK_CONFIG.size CHUNK_CONFIG.overlap).getD []

/-- The section document built at lines 65–76 for the `idx`-th batch
element. -/
def sectionDocOf (tenantId : Str) (secIdGen : Nat → Str) (idx : Nat)
    (s : SectionInput) : SectionDoc :=
  ⟨tenantId, secIdGen idx, s.type, s.title, s.content,
    (chunkText500 s.content).length, "completed".toList⟩

/-- The chunk documents built at lines 81–92 for the `idx`-th batch
element (one per chunk, with its position and embedding). -/
def chunkDocsOf (tenantId : Str) (secIdGen : Nat → Str)
    (chkIdGen : Nat → Nat → Str) (embedBatch : List Str → List Nat)
    (idx : Nat) (s : SectionInput) : List ChunkDoc :=
  (chunkText500 s.content).enum.map fun p =>
    ⟨tenantId, secIdGen idx, chkIdGen idx p.1, s.type, s.title, p.2,
      (embedBatch (chunkText500 s.content)).getD p.1 0, p.1⟩

/-- The per-section result pushed at lines 101–107. -/
def resultOf (secIdGen : Nat → Str) (idx : Nat) (s : SectionInput) :
    SectionResult :=
  ⟨secIdGen idx, s.type, s.title, (chunkText500 s.content).length,
    "completed".toList⟩

/-- The `for (const section of sections)` loop of `registerData`
(lines 40–110): validate content, chunk, embed, insert the section document
then its chunk documents, accumulate results; a validation failure throws,
leaving every earlier write in place. -/
def registerGo (tenantId : Str) (secIdGen : Nat → Str)
    (chkIdGen : Nat → Nat → Str) (embedBatch : List Str → List Nat)
    (total : Nat) :
    Nat → List SectionInput → Db → List SectionResult → Nat →
      Db × Except RegError RegisterOutput
  | _, [], db, results, totalChunks =>
    (db, .ok ⟨total, totalChunks, results⟩)
  | idx, s :: rest, db, results, totalChunks =>
    if jsTrim s.content = [] then (db, .error (.emptyContent s.title))
    else if chunkText500 s.content = [] then (db, .error (.noChunks s.title))
    else
      registerGo tenantId secIdGen chkIdGen embedBatch total (idx + 1) rest
        ⟨db.sections ++ [sectionDocOf tenantId secIdGen idx s],
          db.chunks ++ chunkDocsOf tenantId secIdGen chkIdGen embedBatch idx s⟩
        (results ++ [resultOf secIdGen idx s])
        (totalChunks + (chunkText500 s.content).length)

/-- `DataService.registerData` (lines 24–121): count the tenant's existing
sections, reject the batch if it would exceed `sectionsPerTenant`, otherwise
process the sections in order. -/
def registerData (secIdGen : Nat → Str) (chkIdGen : Nat → Nat → Str)
    (embedBatch : List Str → List Nat) (db : Db) (tenantId : Str)
    (sections : List SectionInput) (limits : Limits) :
    Db × Except RegError RegisterOutput :=
  if limits.sectionsPerTenant <
      (db.sections.filter (fun d => d.tenantId == tenantId)).length +
        sections.length then
    (db, .error (.sectionLimitExceeded limits.sectionsPerTenant
      (db.sections.filter (fun d => d.tenantId == tenantId)).length
      sections.length))
  else
    registerGo tenantId secIdGen chkIdGen embedBatch sections.length 0
      sections db [] 0

/-- `DataService.getSection` restricted to its lookup
(`findOne({ tenantId, sectionId })`). -/
def getSection (db : Db) (tenantId sectionId : Str) : Option SectionDoc :=
  db.sections.find? fun d =>
    d.tenantId == tenantId && d.sectionId == sectionId

/-- A batch element the loop accepts: its content does not trim to the
empty string and chunking produces at least one chunk. -/
def validSection (s : SectionInput) : Prop :=
  jsTrim s.content ≠ [] ∧ chunkText500 s.content ≠ []

instance (s : SectionInput) : Decidable (validSection s) := by
  unfold validSection
  infer_instance

/-- The section documents created for a batch suffix starting at index
`i`. -/
def createdSections (tenantId : Str) (secIdGen : Nat → Str) (i : Nat)
    (ss : List SectionInput) : List SectionDoc :=
  (ss.enumFrom i).map fun p => sectionDocOf tenantId secIdGen p.1 p.2

/-- The chunk documents created for a batch suffix starting at index `i`. -/
def createdChunks (tenantId : Str) (secIdGen : Nat → Str)
    (chkIdGen : Nat → Nat → Str) (embedBatch : List Str → List Nat)
    (i : Nat) (ss : List SectionInput) : List ChunkDoc :=
  ((ss.enumFrom i).map fun p =>
    chunkDocsOf tenantId secIdGen chkIdGen embedBatch p.1 p.2).join

deriving instance DecidableEq for Except

/-- A section with non-blank content and a section with blank content, used
as a two-element batch. -/
def goodSection : SectionInput :=
  ⟨"faq".toList, "A".toList, "hello world".toList⟩

/-- The blank-content section (fails validation at loop position 1). -/
def badSection : SectionInput := ⟨"faq".toList, "B".toList, " ".toList⟩

/-- The concrete run used to refute batch atomicity: an empty store, a batch
whose first element is valid and whose second has blank content. -/
def notAtomicRun : Db × Except RegError RegisterOutput :=
  registerData (fun _ => ['s']) (fun _ _ => ['c'])
    (fun l => l.map fun _ => 0) ⟨[], []⟩ ['t']
    [goodSection, badSection] freeLimits

/-! ## Data-service lemmas (towards C1) -/

lemma createdSections_cons (tenantId : Str) (secIdGen : Nat → Str) (i : Nat)
    (s : SectionInput) (ss : List SectionInput) :
    createdSections tenantId secIdGen i (s :: ss) =
      sectionDocOf tenantId secIdGen i s ::
        createdSections tenantId secIdGen (i + 1) ss := rfl

lemma createdChunks_cons (tenantId : Str) (secIdGen : Nat → Str)
    (chkIdGen : Nat → Nat → Str) (embedBatch : List Str → List Nat) (i : Nat)
    (s : SectionInput) (ss : List SectionInput) :
    createdChunks tenantId secIdGen chkIdGen embedBatch i (s :: ss) =
      chunkDocsOf tenantId secIdGen chkIdGen embedBatch i s ++
        createdChunks tenantId secIdGen chkIdGen embedBatch (i + 1) ss := rfl

lemma chunkDocsOf_length (tenantId : Str) (secIdGen : Nat → Str)
    (chkIdGen : Nat → Nat → Str) (embedBatch : List Str → List Nat)
    (idx : Nat) (s : SectionInput) :
    (chunkDocsOf tenantId secIdGen chkIdGen embedBatch idx s).length =
      (chunkText500 s.content).length := by
  simp [chunkDocsOf]

lemma enumFrom_fst_le {α : Type} :
    ∀ (ss : List α) (i : Nat) (p : Nat × α), p ∈ ss.enumFrom i → i ≤ p.1
  | [], _, _, h => by simp [List.enumFrom] at h
  | s :: ss, i, p, h => by
    rw [show (s :: ss).enumFrom i = (i, s) :: ss.enumFrom (i + 1) from rfl,
      List.mem_cons] at h
    rcases h with rfl | h
    · exact le_rfl
    · have := enumFrom_fst_le ss (i + 1) p h
      omega

/-- With every batch element valid, the loop creates every section and its
chunks, and reports the batch size, the total chunk count and one result
per section. -/
lemma registerGo_all_valid (tenantId : Str) (secIdGen : Nat → Str)
    (chkIdGen : Nat → Nat → Str) (embedBatch : List Str → List Nat)
    (total : Nat) :
    ∀ (ss : List SectionInput) (i : Nat) (db : Db)
      (results : List SectionResult) (tc : Nat),
      (∀ s ∈ ss, validSection s) →
      registerGo tenantId secIdGen chkIdGen embedBatch total i ss db results
          tc =
        (⟨db.sections ++ createdSections tenantId secIdGen i ss,
          db.chunks ++
            createdChunks tenantId secIdGen chkIdGen embedBatch i ss⟩,
         .ok ⟨total,
           tc + ((ss.map fun s => (chunkText500 s.content).length).sum),
           results ++ (ss.enumFrom i).map fun p => resultOf secIdGen p.1 p.2⟩)
  | [], i, db, results, tc, _ => by
    simp [registerGo, createdSections, createdChunks, List.enumFrom]
  | s :: ss, i, db, results, tc, hv => by
    obtain ⟨h1, h2⟩ := hv s (by simp)
    simp only [registerGo, if_neg h1, if_neg h2]
    rw [registerGo_all_valid tenantId secIdGen chkIdGen embedBatch total ss
      (i + 1) _ _ _ (fun t ht => hv t (by simp [ht]))]
    simp only [createdSections_cons, createdChunks_cons,
      show (s :: ss).enumFrom i = (i, s) :: ss.enumFrom (i + 1) from rfl,
      List.map_cons, List.sum_cons, List.map_cons]
    refine congrArg₂ Prod.mk ?_ ?_
    · simp [List.append_assoc]
    · refine congrArg Except.ok ?_
      refine congrArg₂ (RegisterOutput.mk total) (by omega) ?_
      simp [List.append_assoc]

/-- With the first invalid batch element at position `pre.length`, the loop
creates exactly the sections and chunks of the valid prefix and throws. -/
lemma registerGo_stops_at_invalid (tenantId : Str) (secIdGen : Nat → Str)
    (chkIdGen : Nat → Nat → Str) (embedBatch : List Str → List Nat)
    (total : Nat) :
    ∀ (pre : List SectionInput) (bad : SectionInput)
      (post : List SectionInput) (i : Nat) (db : Db)
      (results : List SectionResult) (tc : Nat),
      (∀ s ∈ pre, validSection s) → ¬ validSection bad →
      ∃ e, registerGo tenantId secIdGen chkIdGen embedBatch total i
          (pre ++ bad :: post) db results tc =
        (⟨db.sections ++ createdSections tenantId secIdGen i pre,
          db.chunks ++
            createdChunks tenantId secIdGen chkIdGen embedBatch i pre⟩,
         .error e)
  | [], bad, post, i, db, results, tc, _, hbad => by
    by_cases h1 : jsTrim bad.content = []
    · exact ⟨.emptyContent bad.title, by
        simp [registerGo, h1, createdSections, createdChunks,
          List.enumFrom]⟩
    · have h2 : chunkText500 bad.content = [] := by
        by_contra h2
        exact hbad ⟨h1, h2⟩
      exact ⟨.noChunks bad.title, by
        simp [registerGo, h1, h2, createdSections, createdChunks,
          List.enumFrom]⟩
  | s :: pre, bad, post, i, db, results, tc, hv, hbad => by
    obtain ⟨h1, h2⟩ := hv s (by simp)
    obtain ⟨e, he⟩ := registerGo_stops_at_invalid tenantId secIdGen chkIdGen
      embedBatch total pre bad post (i + 1)
      ⟨db.sections ++ [sectionDocOf tenantId secIdGen i s],
        db.chunks ++ chunkDocsOf tenantId secIdGen chkIdGen embedBatch i s⟩
      (results ++ [resultOf secIdGen i s])
      (tc + (chunkText500 s.content).length)
      (fun t ht => hv t (by simp [ht])) hbad
    refine ⟨e, ?_⟩
    simp only [List.cons_append, registerGo, if_neg h1, if_neg h2,
      List.append_eq]
    rw [he]
    simp [createdSections_cons, createdChunks_cons, List.append_assoc]

lemma mem_chunkDocsOf_sectionId {tenantId : Str} {secIdGen : Nat → Str}
    {chkIdGen : Nat → Nat → Str} {embedBatch : List Str → List Nat}
    {idx : Nat} {s : SectionInput} {c : ChunkDoc}
    (hc : c ∈ chunkDocsOf tenantId secIdGen chkIdGen embedBatch idx s) :
    c.sectionId = secIdGen idx := by
  obtain ⟨p, -, rfl⟩ := List.mem_map.1 hc
  rfl

lemma mem_createdChunks_sectionId {tenantId : Str} {secIdGen : Nat → Str}
    {chkIdGen : Nat → Nat → Str} {embedBatch : List Str → List Nat} :
    ∀ {ss : List SectionInput} {i : Nat} {c : ChunkDoc},
      c ∈ createdChunks tenantId secIdGen chkIdGen embedBatch i ss →
      ∃ j, i ≤ j ∧ c.sectionId = secIdGen j
  | [], _, _, hc => by simp [createdChunks, List.enumFrom] at hc
  | s :: ss, i, c, hc => by
    rw [createdChunks_cons, List.mem_append] at hc
    rcases hc with hc | hc
    · exact ⟨i, le_rfl, mem_chunkDocsOf_sectionId hc⟩
    · obtain ⟨j, hj, hcs⟩ := mem_createdChunks_sectionId hc
      exact ⟨j, by omega, hcs⟩

lemma createdChunks_count {tenantId : Str} {secIdGen : Nat → Str}
    {chkIdGen : Nat → Nat → Str} {embedBatch : List Str → List Nat}
    (hinj : ∀ a b, secIdGen a = secIdGen b → a = b) :
    ∀ (ss : List SectionInput) (i idx : Nat) (s : SectionInput),
      (idx, s) ∈ ss.enumFrom i →
      ((createdChunks tenantId secIdGen chkIdGen embedBatch i ss).filter
        (fun c => c.sectionId == secIdGen idx)).length =
        (chunkText500 s.content).length
  | [], _, _, _, h => by simp [List.enumFrom] at h
  | t :: ss, i, idx, s, h => by
    rw [show (t :: ss).enumFrom i = (i, t) :: ss.enumFrom (i + 1) from rfl,
      List.mem_cons] at h
    rw [createdChunks_cons, List.filter_append, List.length_append]
    rcases h with h | h
    · rw [Prod.mk.injEq] at h
      obtain ⟨rfl, rfl⟩ := h
      have hblock : (chunkDocsOf tenantId secIdGen chkIdGen embedBatch idx
          s).filter (fun c => c.sectionId == secIdGen idx) =
            chunkDocsOf tenantId secIdGen chkIdGen embedBatch idx s := by
        rw [List.filter_eq_self]
        intro c hc
        rw [mem_chunkDocsOf_sectionId hc]
        exact beq_self_eq_true _
      have hrest : (createdChunks tenantId secIdGen chkIdGen embedBatch
          (idx + 1) ss).filter (fun c => c.sectionId == secIdGen idx) =
            [] := by
        rw [List.filter_eq_nil_iff]
        intro c hc
        obtain ⟨j, hj, hcs⟩ := mem_createdChunks_sectionId hc
        rw [hcs]
        intro heq
        have := hinj j idx (eq_of_beq heq)
        omega
      rw [hblock, hrest, chunkDocsOf_length]
      simp
    · have hidx : i + 1 ≤ idx := enumFrom_fst_le ss (i + 1) (idx, s) h
      have hblock : (chunkDocsOf tenantId secIdGen chkIdGen embedBatch i
          t).filter (fun c => c.sectionId == secIdGen idx) = [] := by
        rw [List.filter_eq_nil_iff]
        intro c hc
        rw [mem_chunkDocsOf_sectionId hc]
        intro heq
        have := hinj i idx (eq_of_beq heq)
        omega
      rw [hblock]
      simp only [List.length_nil, Nat.zero_add]
      exact createdChunks_count hinj ss (i + 1) idx s h

lemma find_createdSections {tenantId : Str} {secIdGen : Nat → Str}
    (hinj : ∀ a b, secIdGen a = secIdGen b → a = b) :
    ∀ (ss : List SectionInput) (i idx : Nat) (s : SectionInput),
      (idx, s) ∈ ss.enumFrom i →
      (createdSections tenantId secIdGen i ss).find?
        (fun d => d.tenantId == tenantId && d.sectionId == secIdGen idx) =
        some (sectionDocOf tenantId secIdGen idx s)
  | [], _, _, _, h => by simp [List.enumFrom] at h
  | t :: ss, i, idx, s, h => by
    rw [show (t :: ss).enumFrom i = (i, t) :: ss.enumFrom (i + 1) from rfl,
      List.mem_cons] at h
    rw [createdSections_cons]
    rcases h with h | h
    · rw [Prod.mk.injEq] at h
      obtain ⟨rfl, rfl⟩ := h
      rw [List.find?_cons_of_pos _ (by simp [sectionDocOf])]
    · have hidx : i + 1 ≤ idx := enumFrom_fst_le ss (i + 1) (idx, s) h
      have hne : (secIdGen i == secIdGen idx) = false := by
        simp only [beq_eq_false_iff_ne, ne_eq]
        intro heq
        have := hinj i idx heq
        omega
      rw [List.find?_cons_of_neg _ (by simp [sectionDocOf, hne])]
      exact find_createdSections hinj ss (i + 1) idx s h

/-- Counterexample for C1: `registerData` is not batch-atomic.  On an empty
store, a batch whose first section is valid and whose second has blank
content throws the "empty content" error for the second section, yet the
first section's document and its chunk row remain created — a failure while
processing the 2nd batch element leaves the earlier element visible. -/
theorem registerData_not_batch_atomic :
    notAtomicRun.2 = .error (.emptyContent "B".toList) ∧
      notAtomicRun.1.sections =
        [sectionDocOf ['t'] (fun _ => ['s']) 0 goodSection] ∧
      notAtomicRun.1.chunks.length = 1 := by
  decide

/-- C1 amended: ingestion is per-section sequential, not batch-atomic.
(1) If the batch would exceed `sectionsPerTenant`, nothing is created and
the call fails.  (2) If every section is valid, all of them are created —
each section document together with its chunk rows — and the call reports
the batch size, total chunk count and one result per section.  (3) If the
first invalid section sits at position `pre.length`, exactly the sections
of the valid prefix `pre` (with their chunk rows) are created and the call
fails; no section is ever left without its chunk rows at call completion.
(4) With fresh, injective section ids, each created section's `chunkCount`
equals the number of chunk rows stored for it, and (5) each created section
is immediately retrievable by `getSection`.  (Visibility of the
section-before-chunks write order to concurrent readers mid-call is outside
this sequential model.) -/
theorem registerData_per_section_effects (secIdGen : Nat → Str)
    (chkIdGen : Nat → Nat → Str) (embedBatch : List Str → List Nat)
    (db : Db) (tenantId : Str) (sections : List SectionInput)
    (limits : Limits) :
    (limits.sectionsPerTenant <
        (db.sections.filter (fun d => d.tenantId == tenantId)).length +
          sections.length →
      registerData secIdGen chkIdGen embedBatch db tenantId sections
          limits =
        (db, .error (.sectionLimitExceeded limits.sectionsPerTenant
          (db.sections.filter (fun d => d.tenantId == tenantId)).length
          sections.length))) ∧
    (¬ limits.sectionsPerTenant <
        (db.sections.filter (fun d => d.tenantId == tenantId)).length +
          sections.length →
      (∀ s ∈ sections, validSection s) →
      registerData secIdGen chkIdGen embedBatch db tenantId sections
          limits =
        (⟨db.sections ++ createdSections tenantId secIdGen 0 sections,
          db.chunks ++
            createdChunks tenantId secIdGen chkIdGen embedBatch 0 sections⟩,
         .ok ⟨sections.length,
           (sections.map fun s => (chunkText500 s.content).length).sum,
           (sections.enumFrom 0).map fun p => resultOf secIdGen p.1 p.2⟩)) ∧
    (∀ pre bad post, sections = pre ++ bad :: post →
      ¬ limits.sectionsPerTenant <
        (db.sections.filter (fun d => d.tenantId == tenantId)).length +
          sections.length →
      (∀ s ∈ pre, validSection s) → ¬ validSection bad →
      ∃ e, registerData secIdGen chkIdGen embedBatch db tenantId sections
          limits =
        (⟨db.sections ++ createdSections tenantId secIdGen 0 pre,
          db.chunks ++
            createdChunks tenantId secIdGen chkIdGen embedBatch 0 pre⟩,
         .error e)) ∧
    ((∀ a b, secIdGen a = secIdGen b → a = b) →
      (∀ c ∈ db.chunks, ∀ n, c.sectionId ≠ secIdGen n) →
      ∀ p ∈ sections.enumFrom 0,
        ((db.chunks ++ createdChunks tenantId secIdGen chkIdGen embedBatch 0
            sections).filter
          (fun c => c.sectionId == secIdGen p.1)).length =
          (sectionDocOf tenantId secIdGen p.1 p.2).chunkCount) ∧
    ((∀ a b, secIdGen a = secIdGen b → a = b) →
      (∀ d ∈ db.sections, ∀ n, d.sectionId ≠ secIdGen n) →
      ∀ p ∈ sections.enumFrom 0,
        getSection
          ⟨db.sections ++ createdSections tenantId secIdGen 0 sections,
            db.chunks ++ createdChunks tenantId secIdGen chkIdGen embedBatch
              0 sections⟩ tenantId (secIdGen p.1) =
          some (sectionDocOf tenantId secIdGen p.1 p.2)) := by
  refine ⟨fun h => ?_, fun hlim hv => ?_, fun pre bad post hdec hlim hpre
    hbad => ?_, fun hinj hfresh p hp => ?_, fun hinj hfresh p hp => ?_⟩
  · simp only [registerData]
    rw [if_pos h]
  · simp only [registerData]
    rw [if_neg hlim,
      registerGo_all_valid tenantId secIdGen chkIdGen embedBatch
        sections.length sections 0 db [] 0 hv]
    simp
  · subst hdec
    obtain ⟨e, he⟩ := registerGo_stops_at_invalid tenantId secIdGen chkIdGen
      embedBatch (pre ++ bad :: post).length pre bad post 0 db [] 0 hpre hbad
    refine ⟨e, ?_⟩
    simp only [registerData]
    rw [if_neg hlim, he]
  · obtain ⟨idx, s⟩ := p
    rw [List.filter_append, List.length_append]
    have h1 : (db.chunks.filter fun c => c.sectionId == secIdGen idx) =
        [] := by
      rw [List.filter_eq_nil_iff]
      intro c hc heq
      exact hfresh c hc idx (eq_of_beq heq)
    rw [h1]
    simp only [List.length_nil, Nat.zero_add]
    exact createdChunks_count hinj sections 0 idx s hp
  · obtain ⟨idx, s⟩ := p
    simp only [getSection]
    rw [List.find?_append]
    have h1 : db.sections.find?
        (fun d => d.tenantId == tenantId && d.sectionId == secIdGen idx) =
          none := by
      rw [List.find?_eq_none]
      intro d hd hpred
      rw [Bool.and_eq_true] at hpred
      exact hfresh d hd idx (eq_of_beq hpred.2)
    rw [h1]
    simp only [Option.none_or]
    exact find_createdSections hinj sections 0 idx s hp

/-- Section-id generator with provable injectivity, for the C1 witness. -/
def wSecGen (n : Nat) : Str := List.replicate (n + 1) 's'

/-- Chunk-id generator for the C1 witness. -/
def wChkGen (n m : Nat) : Str :=
  List.replicate (n + 1) 'c' ++ List.replicate (m + 1) 'k'

/-- Embedding stand-in for the C1 witness. -/
def wEmbed (l : List Str) : List Nat := l.map fun _ => 0

/-- Witness for C1's amended claim: a valid single-section batch on an empty
store creates the section with its one chunk row, reports it, stores
exactly one chunk row under its section id, and the section is immediately
retrievable. -/
theorem registerData_per_section_effects_witness :
    registerData wSecGen wChkGen wEmbed ⟨[], []⟩ ['t'] [goodSection]
        freeLimits =
      (⟨createdSections ['t'] wSecGen 0 [goodSection],
        createdChunks ['t'] wSecGen wChkGen wEmbed 0 [goodSection]⟩,
       .ok ⟨1, 1, [resultOf wSecGen 0 goodSection]⟩) ∧
      (([] ++ createdChunks ['t'] wSecGen wChkGen wEmbed 0
          [goodSection]).filter
        (fun c : ChunkDoc => c.sectionId == wSecGen 0)).length =
        (sectionDocOf ['t'] wSecGen 0 goodSection).chunkCount ∧
      getSection
          ⟨[] ++ createdSections ['t'] wSecGen 0 [goodSection],
            [] ++ createdChunks ['t'] wSecGen wChkGen wEmbed 0
              [goodSection]⟩ ['t'] (wSecGen 0) =
        some (sectionDocOf ['t'] wSecGen 0 goodSection) := by
  have hinj : ∀ a b, wSecGen a = wSecGen b → a = b := by
    intro a b h
    have := congrArg List.length h
    simpa [wSecGen] using this
  refine ⟨((registerData_per_section_effects wSecGen wChkGen wEmbed ⟨[], []⟩
      ['t'] [goodSection] freeLimits).2.1 (by decide) (by decide)).trans
      (by decide), ?_, ?_⟩
  · exact (registerData_per_section_effects wSecGen wChkGen wEmbed ⟨[], []⟩
      ['t'] [goodSection] freeLimits).2.2.2.1 hinj
      (fun c hc => absurd hc (List.not_mem_nil c)) (0, goodSection)
      (by decide)
  · exact (registerData_per_section_effects wSecGen wChkGen wEmbed ⟨[], []⟩
      ['t'] [goodSection] freeLimits).2.2.2.2 hinj
      (fun d hd => absurd hd (List.not_mem_nil d)) (0, goodSection)
      (by decide)

end Fyrebot
